import Mathlib

/-!
Verification of the JSONL-to-CSV conversion engine in `src/jsonl_to_csv.py`
(class `JsonlToCsvConverter`).

The embedding models:
  * JSON values as produced by Python `json.loads` (`JsonValue`); Python
    `int` is modelled by `JsonValue.num : Int`, Python `float` by
    `JsonValue.fnum m e` standing for the decimal `m * 10^-(e+1)`,
    Python `dict` by an insertion-ordered association list (`Record`).
  * one input line of a `.jsonl` file by its parse outcome (`LineParse`):
    either the stripped line is empty, or `json.loads` fails, or it yields
    a value; `json.loads` itself is external library code.
  * `read_jsonl`, `get_all_keys`, `flatten_value` and `convert_file`,
    translated clause by clause from the source.
  * `json.dumps(value, ensure_ascii=...)` with its default separators
    (`", "` and `": "`) by `dumps`, including CPython string escaping.
  * `json.loads` on the output side by a recursive-descent reader (`loads`)
    used to state the round-trip property.
  * the file system, as far as the engine touches it, by the content of the
    one output path (`Option String`: `none` = the path does not exist).
-/

set_option maxHeartbeats 1000000

/-- JSON values as returned by Python `json.loads`. -/
inductive JsonValue : Type where
  /-- a JSON object: Python `dict`, insertion ordered, keys unique -/
  | obj (fields : List (String × JsonValue))
  /-- a JSON array: Python `list` -/
  | arr (elems : List JsonValue)
  /-- a JSON string: Python `str` -/
  | str (s : String)
  /-- an integer number: Python `int` -/
  | num (n : Int)
  /-- a number with a fractional part: Python `float`, value `m * 10^-(e+1)` -/
  | fnum (m : Int) (e : Nat)
  /-- Python `bool` -/
  | bool (b : Bool)
  /-- JSON `null`: Python `None` -/
  | null

/-- A record: one parsed JSON object (`dict`), as an ordered association list. -/
abbrev Record := List (String × JsonValue)

/-- The outcome of `line.strip()` followed by `json.loads` on one input line.
`json.loads` is external library code, so a line is characterised by what it
parses to. -/
inductive LineParse : Type where
  /-- the line is empty after stripping surrounding whitespace -/
  | blank
  /-- `json.loads` raises `json.JSONDecodeError` with message `err` -/
  | invalid (err : String)
  /-- `json.loads` succeeds and returns `v` -/
  | value (v : JsonValue)

/-- The constructor parameters of `JsonlToCsvConverter.__init__`
(the `logger` callback only produces diagnostics and is not modelled). -/
structure Converter : Type where
  ensure_ascii : Bool := false
  overwrite : Bool := false
  deriving DecidableEq, Repr

/-! ### Decimal rendering of numbers (Python `repr` of `int` and `float`) -/

/-- The character for the decimal digit `d` (`d < 10`). -/
def digitChar (d : Nat) : Char := Char.ofNat (48 + d)

/-- Decimal digit characters of a natural number, most significant first. -/
def natDigits (n : Nat) : List Char :=
  if n = 0 then ['0'] else (Nat.digits 10 n).reverse.map digitChar

/-- Python `repr`/`str` of an `int`: optional minus sign, then digits. -/
def intRepr (n : Int) : List Char :=
  (if n < 0 then ['-'] else []) ++ natDigits n.natAbs

/-- Decimal digits of `n` padded with leading zeros to width `w`. -/
def natDigitsPadded (n w : Nat) : List Char :=
  List.replicate (w - (natDigits n).length) '0' ++ natDigits n

/-- Rendering of the float `m * 10^-(e+1)`: integer part, a dot, then
exactly `e+1` fractional digits.  This models Python `repr(float)`, which
always prints a decimal string that reads back as the same float. -/
def floatRepr (m : Int) (e : Nat) : List Char :=
  (if m < 0 then ['-'] else []) ++
    natDigits (m.natAbs / 10 ^ (e + 1)) ++
    '.' :: natDigitsPadded (m.natAbs % 10 ^ (e + 1)) (e + 1)

/-! ### CPython `json` string escaping -/

/-- Lowercase hexadecimal digit character for `d < 16`. -/
def hexDigitChar (d : Nat) : Char :=
  Char.ofNat (if d < 10 then 48 + d else 87 + d)

/-- Four lowercase hex digits of `n < 0x10000` (CPython `'\\u%04x'`). -/
def hex4 (n : Nat) : List Char :=
  [hexDigitChar (n / 4096 % 16), hexDigitChar (n / 256 % 16),
   hexDigitChar (n / 16 % 16), hexDigitChar (n % 16)]

/-- CPython `ESCAPE_DCT` entry for a code point `n < 0x20`. -/
def escControl (n : Nat) : List Char :=
  if n = 8 then ['\\', 'b']
  else if n = 9 then ['\\', 't']
  else if n = 10 then ['\\', 'n']
  else if n = 12 then ['\\', 'f']
  else if n = 13 then ['\\', 'r']
  else '\\' :: 'u' :: hex4 n

/-- Encoding of one character inside a JSON string literal, following
`json.encoder.py_encode_basestring` (`ea = false`) and
`py_encode_basestring_ascii` (`ea = true`; escapes everything outside
`0x20`..`0x7e`, using a surrogate pair beyond the BMP). -/
def encChar (ea : Bool) (c : Char) : List Char :=
  if c.toNat = 92 then ['\\', '\\']
  else if c.toNat = 34 then ['\\', '"']
  else if c.toNat < 32 then escControl c.toNat
  else if ea && decide (126 < c.toNat) then
    if c.toNat < 65536 then '\\' :: 'u' :: hex4 c.toNat
    else
      '\\' :: 'u' :: hex4 (55296 + (c.toNat - 65536) / 1024) ++
        '\\' :: 'u' :: hex4 (56320 + (c.toNat - 65536) % 1024)
  else [c]

/-- A JSON string literal: quote, escaped characters, quote. -/
def encStr (ea : Bool) (s : String) : List Char :=
  '"' :: (s.data.map (encChar ea)).flatten ++ ['"']

/-! ### `json.dumps` with the default separators `", "` and `": "` -/

mutual

/-- Model of `json.dumps(value, ensure_ascii=ea)` (other arguments left at
their defaults, hence item separator `", "` and key separator `": "`). -/
def dumps (ea : Bool) : JsonValue → List Char
  | .obj [] => ['\x7b', '\x7d']
  | .obj (f :: fs) => '\x7b' :: (dumpsMember ea f ++ dumpsMembersRest ea fs) ++ ['\x7d']
  | .arr [] => ['[', ']']
  | .arr (v :: vs) => '[' :: (dumps ea v ++ dumpsElemsRest ea vs) ++ [']']
  | .str s => encStr ea s
  | .num n => intRepr n
  | .fnum m e => floatRepr m e
  | .bool b => if b then ['t', 'r', 'u', 'e'] else ['f', 'a', 'l', 's', 'e']
  | .null => ['n', 'u', 'l', 'l']

/-- One `key: value` member of a serialized object. -/
def dumpsMember (ea : Bool) : String × JsonValue → List Char
  | (k, v) => encStr ea k ++ ':' :: ' ' :: dumps ea v

/-- `", "`-separated members after the first one. -/
def dumpsMembersRest (ea : Bool) : List (String × JsonValue) → List Char
  | [] => []
  | f :: fs => ',' :: ' ' :: (dumpsMember ea f ++ dumpsMembersRest ea fs)

/-- `", "`-separated array elements after the first one. -/
def dumpsElemsRest (ea : Bool) : List JsonValue → List Char
  | [] => []
  | v :: vs => ',' :: ' ' :: (dumps ea v ++ dumpsElemsRest ea vs)

end

/-! ### `flatten_value` and cell lookup -/

/-- `JsonlToCsvConverter.flatten_value`:
`dict`/`list` values go through `json.dumps`, `None` becomes the empty
string, every other value is `str(value)` (a `str` is itself, an `int` or
`float` its decimal form, a `bool` the word `True` or `False`). -/
def flatten_value (conv : Converter) (value : JsonValue) : String :=
  match value with
  | .obj fs => String.mk (dumps conv.ensure_ascii (.obj fs))
  | .arr vs => String.mk (dumps conv.ensure_ascii (.arr vs))
  | .null => ""
  | .str s => s
  | .num n => String.mk (intRepr n)
  | .fnum m e => String.mk (floatRepr m e)
  | .bool b => if b then "True" else "False"

/-- Python `item.get(key)`: the stored value, or `None` when the key is
absent.  Both cases land in `JsonValue`, exactly as in Python where the
absent-key default and JSON `null` are the same object `None`. -/
def pyGet (item : Record) (key : String) : JsonValue :=
  (List.lookup key item).getD JsonValue.null

/-- The flattener applied to an optional value (`none` = the field is
absent from the record), as in `flatten_value(item.get(key))`. -/
def flatten_cell (conv : Converter) (v? : Option JsonValue) : String :=
  flatten_value conv (v?.getD JsonValue.null)

/-! ### `get_all_keys` -/

/-- Lexicographic (code point by code point) comparison of character
lists: Python string `<=`. -/
def charsLe : List Char → List Char → Bool
  | [], _ => true
  | _ :: _, [] => false
  | a :: as, b :: bs =>
    if a.toNat < b.toNat then true
    else if b.toNat < a.toNat then false
    else charsLe as bs

/-- Python `<=` on strings: lexicographic code-point order (kept
executable; shown below to agree with the library order on `String`). -/
def sle (a b : String) : Prop := charsLe a.data b.data = true

instance : DecidableRel sle := fun a b => by unfold sle; infer_instance

instance : IsTotal String sle := by
  constructor
  suffices h : ∀ x y, charsLe x y = true ∨ charsLe y x = true by
    intro a b; exact h a.data b.data
  intro x
  induction x with
  | nil => intro y; left; rfl
  | cons a as ih =>
    intro y
    cases y with
    | nil => right; rfl
    | cons b bs =>
      rcases Nat.lt_trichotomy a.toNat b.toNat with h | h | h
      · left; simp [charsLe, h]
      · rcases ih bs with hc | hc
        · left; simp [charsLe, h, hc]
        · right; simp [charsLe, h, hc]
      · right; simp [charsLe, h, Nat.lt_asymm h]

instance : IsTrans String sle := by
  constructor
  suffices h : ∀ x y z, charsLe x y = true → charsLe y z = true → charsLe x z = true by
    intro a b c hab hbc; exact h a.data b.data c.data hab hbc
  intro x
  induction x with
  | nil => intro y z _ _; rfl
  | cons a as ih =>
    intro y z hxy hyz
    cases y with
    | nil => simp [charsLe] at hxy
    | cons b bs =>
      cases z with
      | nil => simp [charsLe] at hyz
      | cons c cs =>
        simp only [charsLe] at hxy hyz ⊢
        rcases Nat.lt_trichotomy a.toNat b.toNat with h1 | h1 | h1
        · rcases Nat.lt_trichotomy b.toNat c.toNat with h2 | h2 | h2
          · simp [show a.toNat < c.toNat by omega]
          · simp [show a.toNat < c.toNat by omega]
          · rw [if_neg (show ¬ b.toNat < c.toNat by omega), if_pos h2] at hyz
            cases hyz
        · rw [if_neg (show ¬ a.toNat < b.toNat by omega),
            if_neg (show ¬ b.toNat < a.toNat by omega)] at hxy
          rcases Nat.lt_trichotomy b.toNat c.toNat with h2 | h2 | h2
          · simp [show a.toNat < c.toNat by omega]
          · rw [if_neg (show ¬ b.toNat < c.toNat by omega),
              if_neg (show ¬ c.toNat < b.toNat by omega)] at hyz
            rw [if_neg (show ¬ a.toNat < c.toNat by omega),
              if_neg (show ¬ c.toNat < a.toNat by omega)]
            exact ih bs cs hxy hyz
          · rw [if_neg (show ¬ b.toNat < c.toNat by omega), if_pos h2] at hyz
            cases hyz
        · rw [if_neg (show ¬ a.toNat < b.toNat by omega), if_pos h1] at hxy
          cases hxy

instance : IsAntisymm String sle := by
  constructor
  suffices h : ∀ x y, charsLe x y = true → charsLe y x = true → x = y by
    intro a b hab hba
    cases a with
    | mk da =>
      cases b with
      | mk db => exact congrArg String.mk (h da db hab hba)
  intro x
  induction x with
  | nil =>
    intro y _ hyx
    cases y with
    | nil => rfl
    | cons b bs => simp [charsLe] at hyx
  | cons a as ih =>
    intro y hxy hyx
    cases y with
    | nil => simp [charsLe] at hxy
    | cons b bs =>
      simp only [charsLe] at hxy hyx
      rcases Nat.lt_trichotomy a.toNat b.toNat with h1 | h1 | h1
      · rw [if_neg (show ¬ b.toNat < a.toNat by omega), if_pos h1] at hyx
        cases hyx
      · have hab : a = b := Char.ext (UInt32.toNat.inj h1)
        subst hab
        rw [if_neg (Nat.lt_irrefl _), if_neg (Nat.lt_irrefl _)] at hxy hyx
        rw [ih bs hxy hyx]
      · rw [if_neg (show ¬ a.toNat < b.toNat by omega), if_pos h1] at hxy
        cases hxy

/-- `item.keys()` of a record, in insertion order. -/
def keysOf (item : Record) : List String := item.map Prod.fst

/-- Adding one element to a Python `set`, modelled as a duplicate-free
list; insertion position is irrelevant after the final sort. -/
def setInsert (ks : List String) (k : String) : List String :=
  if k ∈ ks then ks else ks ++ [k]

/-- `all_keys.update(item.keys())`. -/
def setUpdateKeys (ks : List String) (item : Record) : List String :=
  (keysOf item).foldl setInsert ks

/-- `JsonlToCsvConverter.get_all_keys`: collect every key of every record
into a set, then `sorted(...)` (lexicographic on code points; the
`isinstance(item, dict)` guard is vacuous here because `Record` is the
dict type). -/
def get_all_keys (data : List Record) : List String :=
  List.insertionSort sle (data.foldl setUpdateKeys [])

/-! ### `read_jsonl` -/

/-- Warning text for a line whose JSON value is not an object. -/
def nonObjectMsg (path : String) (n : Nat) : String :=
  "Skipping non-object JSON on line " ++ toString n ++ " in " ++ path

/-- Warning text for a line that is not valid JSON. -/
def invalidMsg (path : String) (n : Nat) (e : String) : String :=
  "Skipping invalid JSON on line " ++ toString n ++ " in " ++ path ++ ": " ++ e

/-- The `for line_num, line in enumerate(file, 1)` loop of `read_jsonl`,
carrying the 1-based line counter and the `data` and `warnings`
accumulators. -/
def readLoop (path : String) : Nat → List LineParse → List Record → List String →
    List Record × List String
  | _, [], data, warns => (data, warns)
  | n, l :: ls, data, warns =>
    match l with
    | .blank => readLoop path (n + 1) ls data warns
    | .value (.obj fields) => readLoop path (n + 1) ls (data ++ [fields]) warns
    | .value _ => readLoop path (n + 1) ls data (warns ++ [nonObjectMsg path n])
    | .invalid e => readLoop path (n + 1) ls data (warns ++ [invalidMsg path n e])

/-- `JsonlToCsvConverter.read_jsonl` on a readable UTF-8 file whose lines
parse as given (the `FileNotFoundError` branch is outside these claims). -/
def read_jsonl (path : String) (lines : List LineParse) : List Record × List String :=
  readLoop path 1 lines [] []

/-! ### CSV emission (`csv.DictWriter`, default dialect) -/

/-- Does a field need quoting under `QUOTE_MINIMAL` (delimiter, quote
character or line break present)? -/
def csvNeedsQuote (s : String) : Bool :=
  s.data.any (fun c => c = ',' || c = '"' || c = '\n' || c = '\r')

/-- Double every quote character. -/
def csvEscape (s : String) : List Char :=
  (s.data.map (fun c => if c = '"' then ['"', '"'] else [c])).flatten

/-- One CSV field, quoted when needed. -/
def csvField (s : String) : String :=
  if csvNeedsQuote s then String.mk ('"' :: csvEscape s ++ ['"']) else s

/-- One CSV line (the `csv` module default line terminator is CRLF). -/
def csvLine (row : List String) : String :=
  String.intercalate "," (row.map csvField) ++ "\r\n"

/-- The full CSV text for a list of rows. -/
def csvText (rows : List (List String)) : String :=
  String.join (rows.map csvLine)

/-- The dict comprehension
`{key: self.flatten_value(item.get(key)) for key in headers}`. -/
def rowDict (conv : Converter) (item : Record) (headers : List String) :
    List (String × String) :=
  headers.map (fun key => (key, flatten_value conv (pyGet item key)))

/-- `csv.DictWriter._dict_to_list` with `extrasaction="ignore"`:
`[rowdict.get(key, restval) for key in fieldnames]`, `restval=None`
written out as the empty field. -/
def dictToList (headers : List String) (row : List (String × String)) : List String :=
  headers.map (fun h => (List.lookup h row).getD "")

/-- The rows written by `convert_file`: `writeheader()` emits the field
names, then one row per record in arrival order. -/
def csvRows (conv : Converter) (records : List Record) (headers : List String) :
    List (List String) :=
  headers :: records.map (fun item => dictToList headers (rowDict conv item headers))

/-! ### `convert_file` -/

/-- The failure outcomes of `convert_file` relevant to these claims:
the two `ValueError`s and the `FileExistsError` (message text without the
surrounding quote marks of the Python f-strings). -/
inductive ConvError : Type where
  /-- `ValueError: No valid JSON objects found in ...` -/
  | noValidRecords (msg : String)
  /-- `ValueError: No keys found across JSON objects in ...` -/
  | noHeaders (msg : String)
  /-- `FileExistsError: Output file already exists: ...` -/
  | destinationExists (msg : String)
  deriving DecidableEq, Repr

/-- The success dictionary returned by `convert_file`. -/
structure ConvResult : Type where
  input_file : String
  output_file : String
  records_written : Nat
  headers : List String
  warnings : List String
  deriving DecidableEq, Repr

/-- `JsonlToCsvConverter.convert_file` on a readable input file, as a pure
function of the parsed input lines and of the current content of the
(already resolved) output path (`fs = none`: the path does not exist).
Returns the outcome together with the new content of the output path;
every failure is raised before the output file is opened, so the path is
untouched on failure. -/
def convert_file (conv : Converter) (inPath : String) (lines : List LineParse)
    (outPath : String) (fs : Option String) :
    Except ConvError ConvResult × Option String :=
  let rw := read_jsonl inPath lines
  let records := rw.1
  let warnings := rw.2
  if records.isEmpty then
    (.error (.noValidRecords ("No valid JSON objects found in " ++ inPath)), fs)
  else
    let headers := get_all_keys records
    if headers.isEmpty then
      (.error (.noHeaders ("No keys found across JSON objects in " ++ inPath)), fs)
    else if fs.isSome && !conv.overwrite then
      (.error (.destinationExists ("Output file already exists: " ++ outPath)), fs)
    else
      (.ok ⟨inPath, outPath, records.length, headers, warnings⟩,
        some (csvText (csvRows conv records headers)))

/-- Is the outcome any failure? -/
def isFailure (r : Except ConvError ConvResult) : Bool :=
  match r with
  | .error _ => true
  | .ok _ => false

/-- Is the outcome a `DestinationExists` failure? -/
def isDestinationExistsFailure (r : Except ConvError ConvResult) : Bool :=
  match r with
  | .error (.destinationExists _) => true
  | _ => false

/-! ### A model of `json.loads` on engine output

Used to state the round-trip property: re-parsing the flattened text of an
object or array value recovers the value.  The reader is recursive descent
with a fuel argument; `loads` supplies fuel from the input length. -/

/-- Skip JSON whitespace. -/
def skipWs : List Char → List Char
  | c :: r =>
    if c = ' ' ∨ c = '\t' ∨ c = '\n' ∨ c = '\r' then skipWs r else c :: r
  | [] => []

/-- Is `c` a decimal digit? -/
def isDigitC (c : Char) : Bool := 48 ≤ c.toNat && c.toNat ≤ 57

/-- Read a maximal run of digits, returning accumulated value, number of
digits read (added to `cnt`) and the rest of the input. -/
def parseDigitsCnt : List Char → Nat → Nat → Nat × Nat × List Char
  | c :: cs, acc, cnt =>
    if isDigitC c then parseDigitsCnt cs (acc * 10 + (c.toNat - 48)) (cnt + 1)
    else (acc, cnt, c :: cs)
  | [], acc, cnt => (acc, cnt, [])

/-- Value of a run of digit characters (most significant first) pushed
onto the accumulator `acc`. -/
def digitsVal (acc : Nat) (ds : List Char) : Nat :=
  ds.foldl (fun a c => a * 10 + (c.toNat - 48)) acc

/-- Does the input start with a decimal digit? -/
def headIsDigit (l : List Char) : Bool :=
  match l.head? with
  | some c => isDigitC c
  | none => false

/-- Read a JSON number (integer or decimal fraction; the engine never
emits exponent form, so it is not modelled).  A fraction part needs a
digit after the dot, as in the `json` module number regex. -/
def parseNumber (l : List Char) : Option (JsonValue × List Char) :=
  let neg : Bool := l.head? == some '-'
  let l₁ := if neg then l.tail else l
  if headIsDigit l₁ then
    let dres := parseDigitsCnt l₁ 0 0
    let r := dres.2.2
    if r.head? == some '.' && headIsDigit r.tail then
      let fres := parseDigitsCnt r.tail 0 0
      let m : Nat := dres.1 * 10 ^ fres.2.1 + fres.1
      some (.fnum (if neg then -(m : Int) else (m : Int)) (fres.2.1 - 1), fres.2.2)
    else
      some (.num (if neg then -(dres.1 : Int) else (dres.1 : Int)), r)
  else none

/-- Value of a hexadecimal digit character (either case). -/
def fromHexDigit (c : Char) : Option Nat :=
  if 48 ≤ c.toNat ∧ c.toNat ≤ 57 then some (c.toNat - 48)
  else if 97 ≤ c.toNat ∧ c.toNat ≤ 102 then some (c.toNat - 87)
  else if 65 ≤ c.toNat ∧ c.toNat ≤ 70 then some (c.toNat - 55)
  else none

/-- Read exactly four hex digits. -/
def fromHex4 : List Char → Option (Nat × List Char)
  | a :: b :: c :: d :: r =>
    match fromHexDigit a, fromHexDigit b, fromHexDigit c, fromHexDigit d with
    | some x, some y, some z, some w => some (x * 4096 + y * 256 + z * 16 + w, r)
    | _, _, _, _ => none
  | _ => none

/-- Read the body of a backslash escape.  A `\uXXXX` high surrogate must be
followed by a low surrogate forming one code point (a lone surrogate is not
representable as a `Char`, and the engine never emits one). -/
def decodeEscape : List Char → Option (Char × List Char)
  | '"' :: r => some ('"', r)
  | '\\' :: r => some ('\\', r)
  | '/' :: r => some ('/', r)
  | 'b' :: r => some ('\x08', r)
  | 'f' :: r => some ('\x0c', r)
  | 'n' :: r => some ('\n', r)
  | 'r' :: r => some ('\r', r)
  | 't' :: r => some ('\t', r)
  | 'u' :: r =>
    match fromHex4 r with
    | some (n, r₁) =>
      if 55296 ≤ n ∧ n ≤ 56319 then
        match r₁ with
        | '\\' :: 'u' :: r₂ =>
          match fromHex4 r₂ with
          | some (n₂, r₃) =>
            if 56320 ≤ n₂ ∧ n₂ ≤ 57343 then
              some (Char.ofNat (65536 + (n - 55296) * 1024 + (n₂ - 56320)), r₃)
            else none
          | none => none
        | _ => none
      else if 56320 ≤ n ∧ n ≤ 57343 then none
      else some (Char.ofNat n, r₁)
    | none => none
  | _ => none

/-- Read the rest of a string literal (after the opening quote) up to the
closing quote; unescaped control characters are rejected as in the
`json` module strict mode.  `fuel` bounds the number of decoded
characters. -/
def decodeStr : Nat → List Char → Option (List Char × List Char)
  | 0, _ => none
  | _ + 1, [] => none
  | fuel + 1, c :: r =>
    if c = '"' then some ([], r)
    else if c = '\\' then
      match decodeEscape r with
      | some (d, r₁) =>
        match decodeStr fuel r₁ with
        | some (s, r₂) => some (d :: s, r₂)
        | none => none
      | none => none
    else if c.toNat < 32 then none
    else
      match decodeStr fuel r with
      | some (s, r₂) => some (c :: s, r₂)
      | none => none

mutual

/-- Read one JSON value. -/
def parseVal : Nat → List Char → Option (JsonValue × List Char)
  | 0, _ => none
  | fuel + 1, l =>
    match skipWs l with
    | [] => none
    | c :: r =>
      if c = '\x7b' then
        match skipWs r with
        | '\x7d' :: r₁ => some (.obj [], r₁)
        | r₁ =>
          match parseMembers fuel r₁ with
          | some (fs, r₂) => some (.obj fs, r₂)
          | none => none
      else if c = '[' then
        match skipWs r with
        | ']' :: r₁ => some (.arr [], r₁)
        | r₁ =>
          match parseElems fuel r₁ with
          | some (vs, r₂) => some (.arr vs, r₂)
          | none => none
      else if c = '"' then
        match decodeStr (r.length + 1) r with
        | some (cs, r₁) => some (.str (String.mk cs), r₁)
        | none => none
      else if c = 't' then
        match r with
        | 'r' :: 'u' :: 'e' :: r₁ => some (.bool true, r₁)
        | _ => none
      else if c = 'f' then
        match r with
        | 'a' :: 'l' :: 's' :: 'e' :: r₁ => some (.bool false, r₁)
        | _ => none
      else if c = 'n' then
        match r with
        | 'u' :: 'l' :: 'l' :: r₁ => some (.null, r₁)
        | _ => none
      else parseNumber (c :: r)

/-- Read the members of a non-empty object, up to the closing brace. -/
def parseMembers : Nat → List Char → Option (List (String × JsonValue) × List Char)
  | 0, _ => none
  | fuel + 1, l =>
    match skipWs l with
    | '"' :: r =>
      match decodeStr (r.length + 1) r with
      | some (k, r₁) =>
        match skipWs r₁ with
        | ':' :: r₂ =>
          match parseVal fuel r₂ with
          | some (v, r₃) =>
            match skipWs r₃ with
            | ',' :: r₄ =>
              match parseMembers fuel r₄ with
              | some (fs, r₅) => some ((String.mk k, v) :: fs, r₅)
              | none => none
            | '\x7d' :: r₄ => some ([(String.mk k, v)], r₄)
            | _ => none
          | none => none
        | _ => none
      | none => none
    | _ => none

/-- Read the elements of a non-empty array, up to the closing bracket. -/
def parseElems : Nat → List Char → Option (List JsonValue × List Char)
  | 0, _ => none
  | fuel + 1, l =>
    match parseVal fuel l with
    | some (v, r) =>
      match skipWs r with
      | ',' :: r₁ =>
        match parseElems fuel r₁ with
        | some (vs, r₂) => some (v :: vs, r₂)
        | none => none
      | ']' :: r₁ => some ([v], r₁)
      | _ => none
    | none => none

end

/-- Model of `json.loads` on one document: read one value, demand nothing
but whitespace after it. -/
def loads (s : String) : Option JsonValue :=
  match parseVal (s.length + 1) s.data with
  | some (v, r) => if skipWs r = [] then some v else none
  | none => none

mutual

/-- Fuel measure for `parseVal` on serialized values. -/
def jsize : JsonValue → Nat
  | .obj fs => 1 + msize fs
  | .arr vs => 1 + esize vs
  | .str _ => 1
  | .num _ => 1
  | .fnum _ _ => 1
  | .bool _ => 1
  | .null => 1

/-- Fuel measure for `parseMembers`. -/
def msize : List (String × JsonValue) → Nat
  | [] => 1
  | f :: fs => 1 + max (jsize f.2) (msize fs)

/-- Fuel measure for `parseElems`. -/
def esize : List JsonValue → Nat
  | [] => 1
  | v :: vs => 1 + max (jsize v) (esize vs)

end

/-- Continuations that can follow a serialized value inside a document
(or its end): they never extend a number token. -/
def isSep : List Char → Bool
  | [] => true
  | c :: _ => c = ',' || c = '\x7d' || c = ']'

/-- The input does not continue a number token (no digit, no fraction
dot). -/
def numBoundary : List Char → Bool
  | [] => true
  | c :: _ => !isDigitC c && !(c = '.')

/-- Is the value of `dict` or `list` kind (sent to `json.dumps` by
`flatten_value`)? -/
def isComplex : JsonValue → Bool
  | .obj _ => true
  | .arr _ => true
  | _ => false

/-! ### Spec-side characterizations (from the spec text, for comparison) -/

/-- Spec: the records are exactly the lines that parse as JSON objects,
in original order. -/
def objectLines (lines : List LineParse) : List Record :=
  lines.filterMap (fun l =>
    match l with
    | .value (.obj fields) => some fields
    | _ => none)

/-- Spec: the warning (if any) produced by line number `n`. -/
def lineWarning (path : String) (n : Nat) : LineParse → Option String
  | .blank => none
  | .value (.obj _) => none
  | .value _ => some (nonObjectMsg path n)
  | .invalid e => some (invalidMsg path n e)

/-- Spec: one warning per invalid or non-object line, in line order,
starting at line number `n`. -/
def warningsFrom (path : String) : Nat → List LineParse → List String
  | _, [] => []
  | n, l :: ls =>
    match lineWarning path n l with
    | some w => w :: warningsFrom path (n + 1) ls
    | none => warningsFrom path (n + 1) ls

/-- Spec: the warnings of a whole file (1-based line numbers). -/
def lineWarnings (path : String) (lines : List LineParse) : List String :=
  warningsFrom path 1 lines

/-- Does a line produce a warning (non-empty, and invalid or
non-object)? -/
def isBadLine : LineParse → Bool
  | .blank => false
  | .value (.obj _) => false
  | .value _ => true
  | .invalid _ => true

/-- Spec: the lexicographically sorted, duplicate-free union of the keys
of all records. -/
def specHeaderSet (data : List Record) : List String :=
  List.insertionSort sle ((data.map keysOf).flatten.dedup)

/-- The two example input lines of the spec:
one line with keys `ts`, `raw`, one with keys `ts`, `level`. -/
def exampleLines : List LineParse :=
  [.value (.obj [("ts", .str "t1"), ("raw", .str "up")]),
   .value (.obj [("ts", .str "t2"), ("level", .str "warn")])]

/-! ### Theorems -/

/-- The reader loop appends exactly the object lines to `data` and exactly
one warning per bad line to `warns`. -/
theorem readLoop_spec (path : String) :
    ∀ (ls : List LineParse) (n : Nat) (data : List Record) (warns : List String),
      readLoop path n ls data warns =
        (data ++ objectLines ls, warns ++ warningsFrom path n ls) := by
  intro ls
  induction ls with
  | nil => intro n data warns; simp [readLoop, objectLines, warningsFrom]
  | cons l ls ih =>
    intro n data warns
    cases l with
    | blank => simp [readLoop, objectLines, warningsFrom, lineWarning, ih]
    | invalid e => simp [readLoop, objectLines, warningsFrom, lineWarning, ih]
    | value v =>
      cases v <;> simp [readLoop, objectLines, warningsFrom, lineWarning, ih]

/-- `warningsFrom` produces one warning per bad line. -/
theorem warningsFrom_length (path : String) :
    ∀ (ls : List LineParse) (n : Nat),
      (warningsFrom path n ls).length = ls.countP isBadLine := by
  intro ls
  induction ls with
  | nil => intro n; simp [warningsFrom]
  | cons l ls ih =>
    intro n
    cases l with
    | blank => simp [warningsFrom, lineWarning, isBadLine, List.countP_cons, ih]
    | invalid e => simp [warningsFrom, lineWarning, isBadLine, List.countP_cons, ih]
    | value v =>
      cases v <;> simp [warningsFrom, lineWarning, isBadLine, List.countP_cons, ih]

/-- C1: on a readable UTF-8 input, `read_jsonl` returns exactly the lines
that parse as JSON objects, once each, in original line order; every
non-empty line that fails to parse or parses to a non-object yields
exactly one warning and no record; a line that is blank after stripping is
skipped with no warning and no record. -/
theorem claim_C1 (path : String) (lines : List LineParse) :
    (read_jsonl path lines).1 = objectLines lines ∧
    (read_jsonl path lines).2 = lineWarnings path lines ∧
    (read_jsonl path lines).2.length = lines.countP isBadLine := by
  refine ⟨?_, ?_, ?_⟩ <;>
    simp [read_jsonl, readLoop_spec, lineWarnings, warningsFrom_length]

/-- Membership in a fold of `setInsert` over a key list. -/
theorem mem_foldl_setInsert (x : String) :
    ∀ (l : List String) (ks : List String),
      x ∈ l.foldl setInsert ks ↔ x ∈ ks ∨ x ∈ l := by
  intro l
  induction l with
  | nil => intro ks; simp
  | cons k l ih =>
    intro ks
    rw [List.foldl_cons, ih]
    unfold setInsert
    by_cases h : k ∈ ks
    · simp only [if_pos h, List.mem_cons]
      constructor
      · rintro (hx | hx)
        · exact Or.inl hx
        · exact Or.inr (Or.inr hx)
      · rintro (hx | rfl | hx)
        · exact Or.inl hx
        · exact Or.inl h
        · exact Or.inr hx
    · simp only [if_neg h, List.mem_append, List.mem_singleton, List.mem_cons]
      tauto

/-- `setInsert` keeps the set duplicate-free. -/
theorem nodup_foldl_setInsert :
    ∀ (l : List String) (ks : List String), ks.Nodup → (l.foldl setInsert ks).Nodup := by
  intro l
  induction l with
  | nil => intro ks h; simpa using h
  | cons k l ih =>
    intro ks h
    rw [List.foldl_cons]
    apply ih
    unfold setInsert
    by_cases hk : k ∈ ks
    · simpa [hk] using h
    · simp only [if_neg hk]
      exact List.Nodup.append h (List.nodup_singleton k) (by simpa using hk)

/-- Membership in the collected key set of `get_all_keys`. -/
theorem mem_foldl_setUpdateKeys (x : String) :
    ∀ (data : List Record) (ks : List String),
      x ∈ data.foldl setUpdateKeys ks ↔ x ∈ ks ∨ ∃ item ∈ data, x ∈ keysOf item := by
  intro data
  induction data with
  | nil => intro ks; simp
  | cons item data ih =>
    intro ks
    rw [List.foldl_cons, ih]
    unfold setUpdateKeys
    rw [mem_foldl_setInsert]
    simp only [List.mem_cons]
    constructor
    · rintro ((hx | hx) | ⟨i, hi, hxi⟩)
      · exact Or.inl hx
      · exact Or.inr ⟨item, Or.inl rfl, hx⟩
      · exact Or.inr ⟨i, Or.inr hi, hxi⟩
    · rintro (hx | ⟨i, rfl | hi, hxi⟩)
      · exact Or.inl (Or.inl hx)
      · exact Or.inl (Or.inr hxi)
      · exact Or.inr ⟨i, hi, hxi⟩

/-- Two `sle`-sorted duplicate-free lists with the same members are
equal. -/
theorem sorted_nodup_ext {l₁ l₂ : List String}
    (hs₁ : l₁.Sorted sle) (hs₂ : l₂.Sorted sle)
    (hn₁ : l₁.Nodup) (hn₂ : l₂.Nodup)
    (hmem : ∀ x, x ∈ l₁ ↔ x ∈ l₂) : l₁ = l₂ :=
  List.eq_of_perm_of_sorted ((List.perm_ext_iff_of_nodup hn₁ hn₂).mpr hmem) hs₁ hs₂

/-- Membership in `get_all_keys`. -/
theorem mem_get_all_keys (x : String) (data : List Record) :
    x ∈ get_all_keys data ↔ ∃ item ∈ data, x ∈ keysOf item := by
  unfold get_all_keys
  rw [(List.perm_insertionSort sle (data.foldl setUpdateKeys [])).mem_iff,
    mem_foldl_setUpdateKeys]
  simp

/-- `get_all_keys` is sorted for the code-point order. -/
theorem sorted_get_all_keys (data : List Record) :
    (get_all_keys data).Sorted sle :=
  List.sorted_insertionSort sle _

/-- The collected key set is duplicate-free. -/
theorem nodup_foldl_setUpdateKeys (data : List Record) :
    (data.foldl setUpdateKeys []).Nodup := by
  induction data using List.reverseRecOn with
  | nil => simp
  | append_singleton data item ih =>
    rw [List.foldl_append, List.foldl_cons, List.foldl_nil]
    exact nodup_foldl_setInsert _ _ ih

/-- `get_all_keys` is duplicate-free. -/
theorem nodup_get_all_keys (data : List Record) : (get_all_keys data).Nodup :=
  ((List.perm_insertionSort sle _).nodup_iff).mpr
    (nodup_foldl_setUpdateKeys data)

/-- The executable code-point comparison agrees with the library
linear order on `String`. -/
theorem sle_iff_le (a b : String) : sle a b ↔ a ≤ b := by
  rw [← not_lt, String.lt_iff_toList_lt]
  show charsLe a.data b.data = true ↔ ¬List.Lex (· < ·) b.data a.data
  suffices h : ∀ x y : List Char, charsLe x y = true ↔ ¬List.Lex (· < ·) y x from
    h a.data b.data
  intro x
  induction x with
  | nil =>
    intro y
    exact iff_of_true rfl (fun hl => nomatch hl)
  | cons a as ih =>
    intro y
    cases y with
    | nil =>
      simp only [charsLe]
      apply iff_of_false
      · simp
      · intro h; exact h List.Lex.nil
    | cons b bs =>
      simp only [charsLe]
      rcases Nat.lt_trichotomy a.toNat b.toNat with h1 | h1 | h1
      · rw [if_pos h1]
        apply iff_of_true rfl
        intro hl
        cases hl with
        | cons hh => exact absurd h1 (Nat.lt_irrefl _)
        | rel hh => exact absurd (show b.toNat < a.toNat from hh) (by omega)
      · have hab : a = b := Char.ext (UInt32.toNat.inj h1)
        subst hab
        rw [if_neg (Nat.lt_irrefl _), if_neg (Nat.lt_irrefl _), ih bs]
        constructor
        · intro h hl
          cases hl with
          | cons hh => exact h hh
          | rel hh => exact absurd (show a.toNat < a.toNat from hh) (Nat.lt_irrefl _)
        · intro h hl
          exact h (List.Lex.cons hl)
      · rw [if_neg (show ¬ a.toNat < b.toNat by omega), if_pos h1]
        apply iff_of_false
        · simp
        · intro h
          exact h (List.Lex.rel (show b < a from h1))

/-- C2: the header set equals the lexicographically sorted, duplicate-free
union of the keys of all records (and is sorted for the library string
order as well), and is invariant under permutation of the record
sequence. -/
theorem claim_C2 (data : List Record) :
    get_all_keys data = specHeaderSet data ∧
    (get_all_keys data).Sorted (· ≤ ·) ∧
    ∀ data' : List Record, data.Perm data' → get_all_keys data = get_all_keys data' := by
  refine ⟨?_, ?_, ?_⟩
  · apply sorted_nodup_ext (sorted_get_all_keys data)
      (List.sorted_insertionSort sle _) (nodup_get_all_keys data)
      (((List.perm_insertionSort sle _).nodup_iff).mpr (List.nodup_dedup _))
    intro x
    rw [mem_get_all_keys]
    rw [(List.perm_insertionSort sle _).mem_iff, List.mem_dedup, List.mem_flatten]
    constructor
    · rintro ⟨item, hi, hx⟩
      exact ⟨keysOf item, List.mem_map_of_mem keysOf hi, hx⟩
    · rintro ⟨ks, hks, hx⟩
      obtain ⟨item, hi, rfl⟩ := List.mem_map.mp hks
      exact ⟨item, hi, hx⟩
  · exact (sorted_get_all_keys data).imp (fun h => (sle_iff_le _ _).mp h)
  · intro data' hperm
    apply sorted_nodup_ext (sorted_get_all_keys data) (sorted_get_all_keys data')
      (nodup_get_all_keys data) (nodup_get_all_keys data')
    intro x
    rw [mem_get_all_keys, mem_get_all_keys]
    constructor
    · rintro ⟨item, hi, hx⟩; exact ⟨item, hperm.mem_iff.mp hi, hx⟩
    · rintro ⟨item, hi, hx⟩; exact ⟨item, hperm.mem_iff.mpr hi, hx⟩

/-- Witness for C2 at a concrete two-record input and its swap. -/
theorem claim_C2_witness :
    get_all_keys [[("b", JsonValue.null)], [("a", JsonValue.null)]] =
      get_all_keys [[("a", JsonValue.null)], [("b", JsonValue.null)]] :=
  (claim_C2 _).2.2 _ (List.Perm.swap [("a", JsonValue.null)] [("b", JsonValue.null)] [])

/-- Looking up `h` in the row dict built over the same header list yields
the flattened value for `h` (even if the header list had duplicates, every
copy carries the same value). -/
theorem lookup_map_pair (f : String → String) :
    ∀ (headers : List String) (h : String), h ∈ headers →
      List.lookup h (headers.map fun k => (k, f k)) = some (f h) := by
  intro headers
  induction headers with
  | nil => intro h hh; simp at hh
  | cons k ks ih =>
    intro h hh
    by_cases hk : h = k
    · subst hk; simp [List.lookup]
    · have hbeq : (h == k) = false := by simpa using hk
      simp only [List.map_cons, List.lookup, hbeq]
      exact ih h (by
        rcases List.mem_cons.mp hh with h1 | h1
        · exact absurd h1 hk
        · exact h1)

/-- `DictWriter` row emission composed with the row-dict comprehension is
the direct per-header flattening. -/
theorem dictToList_rowDict (conv : Converter) (item : Record) (headers : List String) :
    dictToList headers (rowDict conv item headers) =
      headers.map (fun key => flatten_value conv (pyGet item key)) := by
  unfold dictToList rowDict
  apply List.map_congr_left
  intro h hh
  rw [lookup_map_pair _ headers h hh]
  rfl

/-- C3: the writer emits exactly one header row (the header set in order)
followed by one data row per record, rows in record arrival order and
columns in header order; on the spec example the output is the stated
header and the two stated rows. -/
theorem claim_C3 :
    (∀ (conv : Converter) (records : List Record) (headers : List String),
        csvRows conv records headers =
          headers :: records.map (fun item =>
            headers.map (fun key => flatten_value conv (pyGet item key)))) ∧
    get_all_keys (read_jsonl "in.jsonl" exampleLines).1 = ["level", "raw", "ts"] ∧
    csvRows ⟨false, false⟩ (read_jsonl "in.jsonl" exampleLines).1
        (get_all_keys (read_jsonl "in.jsonl" exampleLines).1) =
      [["level", "raw", "ts"], ["", "up", "t1"], ["warn", "", "t2"]] := by
  refine ⟨?_, ?_, ?_⟩
  · intro conv records headers
    unfold csvRows
    rw [List.map_congr_left fun item _ => dictToList_rowDict conv item headers]
  · decide
  · decide

/-- C4: an absent key and a key stored as JSON `null` both produce exactly
the empty-string cell. -/
theorem claim_C4 (conv : Converter) (item : Record) (key : String) :
    (List.lookup key item = none → flatten_value conv (pyGet item key) = "") ∧
    (List.lookup key item = some JsonValue.null →
      flatten_value conv (pyGet item key) = "") := by
  constructor <;> intro h <;> simp [pyGet, h, flatten_value]

/-- Witness for C4: a record where the key is absent, and one where it is
stored as `null`. -/
theorem claim_C4_witness :
    flatten_value ⟨false, false⟩ (pyGet [("a", JsonValue.null)] "b") = "" ∧
    flatten_value ⟨false, false⟩ (pyGet [("a", JsonValue.null)] "a") = "" :=
  ⟨(claim_C4 ⟨false, false⟩ [("a", JsonValue.null)] "b").1 rfl,
   (claim_C4 ⟨false, false⟩ [("a", JsonValue.null)] "a").2 rfl⟩

/-- C7: the flattener is total — every legal JSON value, and the absent
case, maps to exactly one string. -/
theorem claim_C7 (conv : Converter) (v? : Option JsonValue) :
    ∃! s : String, flatten_cell conv v? = s :=
  ⟨flatten_cell conv v?, rfl, fun _ h => h.symm⟩

/-- C10: a key stored as the empty string produces the empty-string cell,
indistinguishable from a `null`-valued and from an absent field. -/
theorem claim_C10 (conv : Converter) (item : Record) (key : String)
    (h : List.lookup key item = some (JsonValue.str "")) :
    flatten_value conv (pyGet item key) = "" ∧
    flatten_value conv (pyGet item key) = flatten_value conv JsonValue.null ∧
    flatten_value conv (pyGet item key) = flatten_value conv (pyGet [] key) := by
  refine ⟨?_, ?_, ?_⟩ <;> simp [pyGet, h, flatten_value]

/-- Witness for C10 at a concrete record. -/
theorem claim_C10_witness :
    flatten_value ⟨false, false⟩ (pyGet [("a", JsonValue.str "")] "a") = "" ∧
    flatten_value ⟨false, false⟩ (pyGet [("a", JsonValue.str "")] "a") =
      flatten_value ⟨false, false⟩ JsonValue.null ∧
    flatten_value ⟨false, false⟩ (pyGet [("a", JsonValue.str "")] "a") =
      flatten_value ⟨false, false⟩ (pyGet [] "a") :=
  claim_C10 ⟨false, false⟩ [("a", JsonValue.str "")] "a" rfl

/-- If every record is keyless the header set is empty. -/
theorem get_all_keys_eq_nil {records : List Record}
    (h : ∀ r ∈ records, keysOf r = []) : get_all_keys records = [] := by
  rw [List.eq_nil_iff_forall_not_mem]
  intro x hx
  obtain ⟨item, hi, hxk⟩ := (mem_get_all_keys x records).mp hx
  rw [h item hi] at hxk
  simp at hxk

/-- C8: an input with no valid object records fails with the
`NoValidRecords` kind, an input whose records all have zero keys fails
with the `NoHeaders` kind, and in both cases the output path is untouched
(the failure is returned before any write). -/
theorem claim_C8 (conv : Converter) (inPath outPath : String)
    (lines : List LineParse) (fs : Option String) :
    ((read_jsonl inPath lines).1 = [] →
      ∃ m, convert_file conv inPath lines outPath fs =
        (Except.error (ConvError.noValidRecords m), fs)) ∧
    ((read_jsonl inPath lines).1 ≠ [] →
      (∀ r ∈ (read_jsonl inPath lines).1, keysOf r = []) →
        ∃ m, convert_file conv inPath lines outPath fs =
          (Except.error (ConvError.noHeaders m), fs)) := by
  constructor
  · intro h
    exact ⟨"No valid JSON objects found in " ++ inPath, by simp [convert_file, h]⟩
  · intro hne hkeys
    have h1 : (read_jsonl inPath lines).1.isEmpty = false := by
      simpa [List.isEmpty_iff] using hne
    have h2 : get_all_keys (read_jsonl inPath lines).1 = [] :=
      get_all_keys_eq_nil hkeys
    exact ⟨"No keys found across JSON objects in " ++ inPath,
      by simp [convert_file, h1, h2]⟩

/-- Witness for C8: an all-invalid input and an all-`\x7b\x7d` input, each with
an output path that is left untouched. -/
theorem claim_C8_witness :
    (∃ m, convert_file ⟨false, false⟩ "in.jsonl" [LineParse.invalid "bad"] "out.csv"
        (some "old") = (Except.error (ConvError.noValidRecords m), some "old")) ∧
    (∃ m, convert_file ⟨false, false⟩ "in.jsonl" [LineParse.value (JsonValue.obj [])]
        "out.csv" (some "old") = (Except.error (ConvError.noHeaders m), some "old")) :=
  ⟨(claim_C8 ⟨false, false⟩ "in.jsonl" "out.csv" [LineParse.invalid "bad"]
      (some "old")).1 rfl,
   (claim_C8 ⟨false, false⟩ "in.jsonl" "out.csv" [LineParse.value (JsonValue.obj [])]
      (some "old")).2 (by simp [read_jsonl, readLoop])
      (by simp [read_jsonl, readLoop, keysOf])⟩

/-- C9 (amended): when the output path exists and overwrite is off, the
conversion always fails and the output content is unchanged; the failure
kind is `DestinationExists` whenever the input yields at least one record
and a non-empty header set (otherwise the earlier `NoValidRecords` or
`NoHeaders` failure fires first). -/
theorem claim_C9_amended (conv : Converter) (inPath outPath : String)
    (lines : List LineParse) (content : String)
    (hov : conv.overwrite = false) :
    (∃ e, convert_file conv inPath lines outPath (some content) =
        (Except.error e, some content)) ∧
    ((read_jsonl inPath lines).1 ≠ [] →
      get_all_keys (read_jsonl inPath lines).1 ≠ [] →
        ∃ m, convert_file conv inPath lines outPath (some content) =
          (Except.error (ConvError.destinationExists m), some content)) := by
  constructor
  · by_cases h1 : (read_jsonl inPath lines).1.isEmpty = true
    · exact ⟨ConvError.noValidRecords ("No valid JSON objects found in " ++ inPath),
        by simp [convert_file, h1]⟩
    · by_cases h2 : (get_all_keys (read_jsonl inPath lines).1).isEmpty = true
      · exact ⟨ConvError.noHeaders ("No keys found across JSON objects in " ++ inPath),
          by simp [convert_file, h1, h2]⟩
      · exact ⟨ConvError.destinationExists ("Output file already exists: " ++ outPath), by
          simp only [Bool.not_eq_true] at h1 h2
          simp [convert_file, h1, h2, hov]⟩
  · intro hr hh
    have h1 : (read_jsonl inPath lines).1.isEmpty = false := by
      simpa [List.isEmpty_iff] using hr
    have h2 : (get_all_keys (read_jsonl inPath lines).1).isEmpty = false := by
      simpa [List.isEmpty_iff] using hh
    exact ⟨"Output file already exists: " ++ outPath,
      by simp [convert_file, h1, h2, hov]⟩

/-- Counterexample to C9 as stated: with an existing output path and
overwrite off, an input with no valid records fails — but not with the
`DestinationExists` kind. -/
theorem claim_C9_counterexample :
    isFailure (convert_file ⟨false, false⟩ "in.jsonl" [] "out.csv" (some "old")).1 = true ∧
    isDestinationExistsFailure
      (convert_file ⟨false, false⟩ "in.jsonl" [] "out.csv" (some "old")).1 = false :=
  ⟨rfl, rfl⟩

/-- Witness for the amended C9 at a concrete input with one record. -/
theorem claim_C9_witness :
    ∃ m, convert_file ⟨false, false⟩ "in.jsonl"
        [LineParse.value (JsonValue.obj [("a", JsonValue.str "x")])] "out.csv"
        (some "old") =
      (Except.error (ConvError.destinationExists m), some "old") :=
  (claim_C9_amended ⟨false, false⟩ "in.jsonl" "out.csv"
      [LineParse.value (JsonValue.obj [("a", JsonValue.str "x")])] "old" rfl).2
    (by simp [read_jsonl, readLoop]) (by decide)

/-! #### Decimal rendering parses back -/

/-- `digitChar` of a digit has the expected code point. -/
theorem digitChar_toNat {d : Nat} (h : d < 10) : (digitChar d).toNat = 48 + d := by
  interval_cases d <;> decide

/-- `digitChar` of a digit is a digit character. -/
theorem isDigitC_digitChar {d : Nat} (h : d < 10) : isDigitC (digitChar d) = true := by
  interval_cases d <;> decide

/-- Every character of `natDigits n` is a digit. -/
theorem natDigits_digits (n : Nat) (c : Char) (hc : c ∈ natDigits n) :
    isDigitC c = true := by
  unfold natDigits at hc
  split at hc
  · simp only [List.mem_singleton] at hc
    subst hc
    decide
  · simp only [List.mem_map, List.mem_reverse] at hc
    obtain ⟨d, hd, rfl⟩ := hc
    exact isDigitC_digitChar (Nat.digits_lt_base (by norm_num) hd)

/-- `natDigits` is never empty. -/
theorem natDigits_ne_nil (n : Nat) : natDigits n ≠ [] := by
  unfold natDigits
  split
  · simp
  · rename_i h0
    simp only [ne_eq, List.map_eq_nil_iff, List.reverse_eq_nil_iff]
    exact Nat.digits_ne_nil_iff_ne_zero.mpr h0

/-- Digit-count bound: below `10^w` the rendering has at most `w`
digits. -/
theorem natDigits_length_le {n w : Nat} (hn : n < 10 ^ w) (hw : 1 ≤ w) :
    (natDigits n).length ≤ w := by
  unfold natDigits
  split
  · simpa using hw
  · rename_i h0
    simp only [List.length_map, List.length_reverse]
    by_contra hlen
    push_neg at hlen
    have h1 : 10 ^ (Nat.digits 10 n).length ≤ 10 * n :=
      Nat.base_pow_length_digits_le 10 n (by norm_num) h0
    have h2 : 10 ^ (w + 1) ≤ 10 ^ (Nat.digits 10 n).length :=
      Nat.pow_le_pow_right (by norm_num) hlen
    rw [pow_succ] at h2
    omega

/-- Folding the rendered digits of a digit list recovers its value. -/
theorem digitsVal_rev_map (L : List Nat) (hL : ∀ d ∈ L, d < 10) :
    ∀ acc, digitsVal acc (L.reverse.map digitChar) =
      acc * 10 ^ L.length + Nat.ofDigits 10 L := by
  induction L with
  | nil => intro acc; simp [digitsVal, Nat.ofDigits_nil]
  | cons d L ih =>
    intro acc
    have hd : d < 10 := hL d (by simp)
    simp only [List.reverse_cons, List.map_append, List.map_cons, List.map_nil]
    unfold digitsVal
    rw [List.foldl_append]
    have ihh := ih (fun x hx => hL x (by simp [hx])) acc
    unfold digitsVal at ihh
    rw [ihh]
    simp only [List.foldl_cons, List.foldl_nil, digitChar_toNat hd,
      Nat.ofDigits_cons, List.length_cons]
    have : 48 + d - 48 = d := by omega
    rw [this, pow_succ]
    ring

/-- Folding `natDigits n` onto `acc` gives `acc * 10^len + n`. -/
theorem digitsVal_natDigits (n : Nat) (acc : Nat) :
    digitsVal acc (natDigits n) = acc * 10 ^ (natDigits n).length + n := by
  unfold natDigits
  split
  · rename_i h0
    subst h0
    simp [digitsVal]
  · rw [digitsVal_rev_map _ (fun d hd => Nat.digits_lt_base (by norm_num) hd) acc,
      Nat.ofDigits_digits]
    simp

/-- Folding a run of zeros multiplies the accumulator. -/
theorem digitsVal_replicate_zero (k : Nat) :
    ∀ acc, digitsVal acc (List.replicate k '0') = acc * 10 ^ k := by
  induction k with
  | zero => intro acc; simp [digitsVal]
  | succ k ih =>
    intro acc
    rw [List.replicate_succ]
    unfold digitsVal
    rw [List.foldl_cons]
    have := ih (acc * 10 + ('0'.toNat - 48))
    unfold digitsVal at this
    rw [this]
    have h0 : '0'.toNat - 48 = 0 := by decide
    rw [h0, pow_succ]
    ring

/-- The padded fraction digits have exactly width `w` and fold to the
padded value. -/
theorem digitsVal_padded {n w : Nat} (hn : n < 10 ^ w) (hw : 1 ≤ w) :
    (natDigitsPadded n w).length = w ∧
    (∀ acc, digitsVal acc (natDigitsPadded n w) = acc * 10 ^ w + n) ∧
    (∀ c ∈ natDigitsPadded n w, isDigitC c = true) := by
  have hlen : (natDigits n).length ≤ w := natDigits_length_le hn hw
  refine ⟨?_, ?_, ?_⟩
  · simp only [natDigitsPadded, List.length_append, List.length_replicate]
    omega
  · intro acc
    unfold natDigitsPadded digitsVal
    rw [List.foldl_append]
    have hz := digitsVal_replicate_zero (w - (natDigits n).length) acc
    unfold digitsVal at hz
    rw [hz]
    have hd := digitsVal_natDigits n (acc * 10 ^ (w - (natDigits n).length))
    unfold digitsVal at hd
    rw [hd, mul_assoc, ← pow_add]
    congr 3
    omega
  · intro c hc
    rcases List.mem_append.mp hc with h | h
    · have : c = '0' := List.eq_of_mem_replicate h
      subst this; decide
    · exact natDigits_digits n c h

/-- Reading a run of digit characters followed by a non-digit boundary. -/
theorem parseDigitsCnt_spec (rest : List Char) (hrest : headIsDigit rest = false) :
    ∀ (ds : List Char) (acc cnt : Nat), (∀ c ∈ ds, isDigitC c = true) →
      parseDigitsCnt (ds ++ rest) acc cnt =
        (digitsVal acc ds, cnt + ds.length, rest) := by
  intro ds
  induction ds with
  | nil =>
    intro acc cnt _
    simp only [List.nil_append, digitsVal, List.foldl_nil, List.length_nil, Nat.add_zero]
    cases rest with
    | nil => rfl
    | cons c cs =>
      have hc : isDigitC c = false := by simpa [headIsDigit] using hrest
      simp [parseDigitsCnt, hc]
  | cons d ds ih =>
    intro acc cnt hds
    have hd : isDigitC d = true := hds d (by simp)
    simp only [List.cons_append, parseDigitsCnt, hd, if_true]
    rw [List.append_eq, ih _ _ (fun c hc => hds c (by simp [hc]))]
    unfold digitsVal
    rw [List.foldl_cons]
    simp only [List.length_cons]
    refine congrArg _ ?_
    refine congrArg (fun x => (x, rest)) ?_
    omega

/-- A number boundary never starts with a digit. -/
theorem numBoundary_headIsDigit {rest : List Char} (h : numBoundary rest = true) :
    headIsDigit rest = false := by
  cases rest with
  | nil => rfl
  | cons c cs =>
    simp only [numBoundary, Bool.and_eq_true, Bool.not_eq_eq_eq_not, Bool.not_true] at h
    simp [headIsDigit, h.1]

/-- A number boundary never starts with a fraction dot. -/
theorem numBoundary_dot {rest : List Char} (h : numBoundary rest = true) :
    (rest.head? == some '.') = false := by
  cases rest with
  | nil => rfl
  | cons c cs =>
    simp only [numBoundary, Bool.and_eq_true, Bool.not_eq_eq_eq_not, Bool.not_true,
      decide_eq_false_iff_not] at h
    simp [h.2]

/-- Reading an unsigned run of digits as a JSON integer. -/
theorem parseNumber_digits (ds rest : List Char)
    (hds : ∀ c ∈ ds, isDigitC c = true) (hne : ds ≠ [])
    (hrest : numBoundary rest = true) :
    parseNumber (ds ++ rest) = some (JsonValue.num (digitsVal 0 ds : Int), rest) := by
  obtain ⟨c, cs, rfl⟩ : ∃ c cs, ds = c :: cs := by
    cases ds with
    | nil => exact absurd rfl hne
    | cons c cs => exact ⟨c, cs, rfl⟩
  have hcd : isDigitC c = true := hds c (by simp)
  have hcm : (some c == some '-') = false := by
    rw [beq_eq_false_iff_ne]
    intro h
    have hc : c = '-' := Option.some.inj h
    subst hc
    exact absurd hcd (by decide)
  have hparse := parseDigitsCnt_spec rest (numBoundary_headIsDigit hrest)
    (c :: cs) 0 0 hds
  rw [List.cons_append] at hparse ⊢
  have hh : headIsDigit (c :: (cs ++ rest)) = true := by simp [headIsDigit, hcd]
  have hdot := numBoundary_dot hrest
  unfold parseNumber
  simp only [List.head?_cons, hcm, Bool.false_eq_true, if_false, hh, if_true,
    hparse, hdot, Bool.false_and, List.cons_append]

/-- Reading a minus sign and a run of digits as a JSON integer. -/
theorem parseNumber_neg_digits (ds rest : List Char)
    (hds : ∀ c ∈ ds, isDigitC c = true) (hne : ds ≠ [])
    (hrest : numBoundary rest = true) :
    parseNumber ('-' :: (ds ++ rest)) =
      some (JsonValue.num (-(digitsVal 0 ds : Int)), rest) := by
  obtain ⟨c, cs, rfl⟩ : ∃ c cs, ds = c :: cs := by
    cases ds with
    | nil => exact absurd rfl hne
    | cons c cs => exact ⟨c, cs, rfl⟩
  have hcd : isDigitC c = true := hds c (by simp)
  have hparse := parseDigitsCnt_spec rest (numBoundary_headIsDigit hrest)
    (c :: cs) 0 0 hds
  rw [List.cons_append] at hparse
  have hh : headIsDigit (c :: (cs ++ rest)) = true := by simp [headIsDigit, hcd]
  have hdot := numBoundary_dot hrest
  unfold parseNumber
  simp only [List.cons_append, List.head?_cons, beq_self_eq_true, if_true,
    List.tail_cons, hh, hparse, hdot, Bool.false_and, Bool.false_eq_true, if_false]

/-- Reading an unsigned decimal fraction as a JSON float. -/
theorem parseNumber_float (ds fs rest : List Char)
    (hds : ∀ c ∈ ds, isDigitC c = true) (hdne : ds ≠ [])
    (hfs : ∀ c ∈ fs, isDigitC c = true) (hfne : fs ≠ [])
    (hrest : numBoundary rest = true) :
    parseNumber (ds ++ '.' :: (fs ++ rest)) =
      some (JsonValue.fnum ((digitsVal 0 ds * 10 ^ fs.length + digitsVal 0 fs : Nat) : Int)
        (fs.length - 1), rest) := by
  obtain ⟨c, cs, rfl⟩ : ∃ c cs, ds = c :: cs := by
    cases ds with
    | nil => exact absurd rfl hdne
    | cons c cs => exact ⟨c, cs, rfl⟩
  obtain ⟨f, gs, rfl⟩ : ∃ f gs, fs = f :: gs := by
    cases fs with
    | nil => exact absurd rfl hfne
    | cons f gs => exact ⟨f, gs, rfl⟩
  have hcd : isDigitC c = true := hds c (by simp)
  have hfd : isDigitC f = true := hfs f (by simp)
  have hcm : (some c == some '-') = false := by
    rw [beq_eq_false_iff_ne]
    intro h
    have hc : c = '-' := Option.some.inj h
    subst hc
    exact absurd hcd (by decide)
  have hparse1 := parseDigitsCnt_spec ('.' :: ((f :: gs) ++ rest)) (by
      simp [headIsDigit, isDigitC]) (c :: cs) 0 0 hds
  have hparse2 := parseDigitsCnt_spec rest (numBoundary_headIsDigit hrest)
    (f :: gs) 0 0 hfs
  have hh : headIsDigit (c :: (cs ++ ('.' :: ((f :: gs) ++ rest)))) = true := by
    simp [headIsDigit, hcd]
  have hh2 : headIsDigit (f :: (gs ++ rest)) = true := by simp [headIsDigit, hfd]
  unfold parseNumber
  simp only [List.cons_append] at hparse1 hparse2 hh ⊢
  simp only [List.head?_cons, hcm, Bool.false_eq_true, if_false, hh, if_true,
    hparse1, List.tail_cons, beq_self_eq_true, Bool.true_and, hh2, hparse2]
  simp

/-- Reading a signed decimal fraction as a JSON float. -/
theorem parseNumber_neg_float (ds fs rest : List Char)
    (hds : ∀ c ∈ ds, isDigitC c = true) (hdne : ds ≠ [])
    (hfs : ∀ c ∈ fs, isDigitC c = true) (hfne : fs ≠ [])
    (hrest : numBoundary rest = true) :
    parseNumber ('-' :: (ds ++ '.' :: (fs ++ rest))) =
      some (JsonValue.fnum
        (-((digitsVal 0 ds * 10 ^ fs.length + digitsVal 0 fs : Nat) : Int))
        (fs.length - 1), rest) := by
  obtain ⟨c, cs, rfl⟩ : ∃ c cs, ds = c :: cs := by
    cases ds with
    | nil => exact absurd rfl hdne
    | cons c cs => exact ⟨c, cs, rfl⟩
  obtain ⟨f, gs, rfl⟩ : ∃ f gs, fs = f :: gs := by
    cases fs with
    | nil => exact absurd rfl hfne
    | cons f gs => exact ⟨f, gs, rfl⟩
  have hcd : isDigitC c = true := hds c (by simp)
  have hfd : isDigitC f = true := hfs f (by simp)
  have hparse1 := parseDigitsCnt_spec ('.' :: ((f :: gs) ++ rest)) (by
      simp [headIsDigit, isDigitC]) (c :: cs) 0 0 hds
  have hparse2 := parseDigitsCnt_spec rest (numBoundary_headIsDigit hrest)
    (f :: gs) 0 0 hfs
  have hh : headIsDigit (c :: (cs ++ ('.' :: ((f :: gs) ++ rest)))) = true := by
    simp [headIsDigit, hcd]
  have hh2 : headIsDigit (f :: (gs ++ rest)) = true := by simp [headIsDigit, hfd]
  unfold parseNumber
  simp only [List.cons_append] at hparse1 hparse2 hh ⊢
  simp only [List.head?_cons, beq_self_eq_true, if_true, List.tail_cons, hh,
    hparse1, Bool.true_and, hh2, hparse2]
  simp

/-- The rendering of a Python `int` reads back as the same integer. -/
theorem parseNumber_intRepr (n : Int) (rest : List Char)
    (hrest : numBoundary rest = true) :
    parseNumber (intRepr n ++ rest) = some (JsonValue.num n, rest) := by
  have hds := natDigits_digits n.natAbs
  have hval := digitsVal_natDigits n.natAbs 0
  rw [Nat.zero_mul, Nat.zero_add] at hval
  unfold intRepr
  by_cases hn : n < 0
  · rw [if_pos hn]
    simp only [List.singleton_append, List.cons_append, List.nil_append]
    rw [parseNumber_neg_digits _ _ (fun c hc => hds c hc)
      (natDigits_ne_nil _) hrest, hval]
    have hcast : -(n.natAbs : Int) = n := by omega
    rw [hcast]
  · rw [if_neg hn]
    simp only [List.nil_append]
    rw [parseNumber_digits _ _ (fun c hc => hds c hc)
      (natDigits_ne_nil _) hrest, hval]
    have hcast : (n.natAbs : Int) = n := by omega
    rw [hcast]

/-- The rendering of a Python `float` reads back as the same decimal. -/
theorem parseNumber_floatRepr (m : Int) (e : Nat) (rest : List Char)
    (hrest : numBoundary rest = true) :
    parseNumber (floatRepr m e ++ rest) = some (JsonValue.fnum m e, rest) := by
  have hmod : m.natAbs % 10 ^ (e + 1) < 10 ^ (e + 1) :=
    Nat.mod_lt _ (by positivity)
  obtain ⟨hplen, hpval, hpdig⟩ := digitsVal_padded hmod (by omega)
  have hintv := digitsVal_natDigits (m.natAbs / 10 ^ (e + 1)) 0
  rw [Nat.zero_mul, Nat.zero_add] at hintv
  have hpv := hpval 0
  rw [Nat.zero_mul, Nat.zero_add] at hpv
  have hpne : natDigitsPadded (m.natAbs % 10 ^ (e + 1)) (e + 1) ≠ [] := by
    intro hnil
    rw [hnil] at hplen
    simp at hplen
  have hmain : digitsVal 0 (natDigits (m.natAbs / 10 ^ (e + 1))) *
        10 ^ (natDigitsPadded (m.natAbs % 10 ^ (e + 1)) (e + 1)).length +
      digitsVal 0 (natDigitsPadded (m.natAbs % 10 ^ (e + 1)) (e + 1)) = m.natAbs := by
    rw [hintv, hpv, hplen]
    have hdm := Nat.div_add_mod m.natAbs (10 ^ (e + 1))
    rw [Nat.mul_comm] at hdm
    exact hdm
  unfold floatRepr
  by_cases hm : m < 0
  · rw [if_pos hm]
    simp only [List.singleton_append, List.cons_append, List.nil_append,
      List.append_assoc]
    rw [parseNumber_neg_float _ _ _ (natDigits_digits _) (natDigits_ne_nil _)
      hpdig hpne hrest, hmain, hplen]
    have hcast : -(m.natAbs : Int) = m := by omega
    rw [hcast]
    simp
  · rw [if_neg hm]
    simp only [List.nil_append, List.append_assoc, List.cons_append]
    rw [parseNumber_float _ _ _ (natDigits_digits _) (natDigits_ne_nil _)
      hpdig hpne hrest, hmain, hplen]
    have hcast : (m.natAbs : Int) = m := by omega
    rw [hcast]
    simp

/-- C6: the flattener renders a string as its own text, a boolean as its
literal word, and a number in standard decimal notation — evidenced by the
number reader recovering exactly the same value from the rendered text. -/
theorem claim_C6 (conv : Converter) :
    (∀ s : String, flatten_value conv (JsonValue.str s) = s) ∧
    (∀ b : Bool, flatten_value conv (JsonValue.bool b) =
      if b then "True" else "False") ∧
    (∀ n : Int, parseNumber (flatten_value conv (JsonValue.num n)).data =
      some (JsonValue.num n, [])) ∧
    (∀ (m : Int) (e : Nat),
      parseNumber (flatten_value conv (JsonValue.fnum m e)).data =
        some (JsonValue.fnum m e, [])) := by
  refine ⟨fun s => rfl, fun b => rfl, ?_, ?_⟩
  · intro n
    show parseNumber (intRepr n) = _
    rw [← List.append_nil (intRepr n)]
    exact parseNumber_intRepr n [] rfl
  · intro m e
    show parseNumber (floatRepr m e) = _
    rw [← List.append_nil (floatRepr m e)]
    exact parseNumber_floatRepr m e [] rfl

/-! #### String escaping decodes back -/

/-- Structural induction over `JsonValue` with membership hypotheses for
the nested lists. -/
theorem JsonValue.myInduction (P : JsonValue → Prop)
    (hobj : ∀ fs, (∀ p ∈ fs, P p.2) → P (.obj fs))
    (harr : ∀ vs, (∀ v ∈ vs, P v) → P (.arr vs))
    (hstr : ∀ s, P (.str s)) (hnum : ∀ n, P (.num n))
    (hfnum : ∀ m e, P (.fnum m e)) (hbool : ∀ b, P (.bool b)) (hnull : P .null) :
    ∀ v, P v := by
  suffices h : ∀ (n : Nat) (v : JsonValue), sizeOf v ≤ n → P v by
    intro v
    exact h (sizeOf v) v (Nat.le_refl _)
  intro n
  induction n with
  | zero =>
    intro v hv
    cases v <;> simp at hv
  | succ n ih =>
    intro v hv
    cases v with
    | obj fs =>
      apply hobj
      intro p hp
      apply ih
      have h1 := List.sizeOf_lt_of_mem hp
      have h2 : sizeOf p.2 < sizeOf p := by
        obtain ⟨a, b⟩ := p
        simp only [Prod.mk.sizeOf_spec]
        omega
      simp at hv
      omega
    | arr vs =>
      apply harr
      intro v hv2
      apply ih
      have h1 := List.sizeOf_lt_of_mem hv2
      simp at hv
      omega
    | str s => exact hstr s
    | num m => exact hnum m
    | fnum m e => exact hfnum m e
    | bool b => exact hbool b
    | null => exact hnull

/-- Reading back a single rendered hex digit. -/
theorem fromHexDigit_hexDigitChar {d : Nat} (h : d < 16) :
    fromHexDigit (hexDigitChar d) = some d := by
  interval_cases d <;> decide

/-- Reading back four rendered hex digits. -/
theorem fromHex4_hex4 {n : Nat} (h : n < 65536) (r : List Char) :
    fromHex4 (hex4 n ++ r) = some (n, r) := by
  have h1 : n / 4096 % 16 < 16 := Nat.mod_lt _ (by norm_num)
  have h2 : n / 256 % 16 < 16 := Nat.mod_lt _ (by norm_num)
  have h3 : n / 16 % 16 < 16 := Nat.mod_lt _ (by norm_num)
  have h4 : n % 16 < 16 := Nat.mod_lt _ (by norm_num)
  simp only [hex4, List.cons_append, List.nil_append, fromHex4,
    fromHexDigit_hexDigitChar h1, fromHexDigit_hexDigitChar h2,
    fromHexDigit_hexDigitChar h3, fromHexDigit_hexDigitChar h4]
  congr 2
  omega

/-- The valid-scalar range of a `Char`: never a surrogate, below
`0x110000`. -/
theorem char_toNat_valid (c : Char) :
    c.toNat < 55296 ∨ (57343 < c.toNat ∧ c.toNat < 1114112) := c.valid

/-- Every escape chunk emitted by `encChar` (after its backslash) decodes
back to the original character. -/
theorem decodeEscape_encChar (ea : Bool) (c : Char) (body t : List Char)
    (hb : encChar ea c = '\\' :: body) :
    decodeEscape (body ++ t) = some (c, t) := by
  unfold encChar at hb
  by_cases h92 : c.toNat = 92
  · rw [if_pos h92] at hb
    have hc : c = '\\' := Char.ext (UInt32.toNat.inj h92)
    obtain rfl : body = ['\\'] := by injection hb with _ h; rw [← h]
    rw [hc]
    rfl
  · rw [if_neg h92] at hb
    by_cases h34 : c.toNat = 34
    · rw [if_pos h34] at hb
      have hc : c = '"' := Char.ext (UInt32.toNat.inj h34)
      obtain rfl : body = ['"'] := by injection hb with _ h; rw [← h]
      rw [hc]
      rfl
    · rw [if_neg h34] at hb
      by_cases h32 : c.toNat < 32
      · rw [if_pos h32] at hb
        unfold escControl at hb
        by_cases h8 : c.toNat = 8
        · rw [if_pos h8] at hb
          obtain rfl : body = ['b'] := by injection hb with _ h; rw [← h]
          have hc : c = '\x08' := Char.ext (UInt32.toNat.inj h8)
          rw [hc]
          rfl
        · rw [if_neg h8] at hb
          by_cases h9 : c.toNat = 9
          · rw [if_pos h9] at hb
            obtain rfl : body = ['t'] := by injection hb with _ h; rw [← h]
            have hc : c = '\t' := Char.ext (UInt32.toNat.inj h9)
            rw [hc]
            rfl
          · rw [if_neg h9] at hb
            by_cases h10 : c.toNat = 10
            · rw [if_pos h10] at hb
              obtain rfl : body = ['n'] := by injection hb with _ h; rw [← h]
              have hc : c = '\n' := Char.ext (UInt32.toNat.inj h10)
              rw [hc]
              rfl
            · rw [if_neg h10] at hb
              by_cases h12 : c.toNat = 12
              · rw [if_pos h12] at hb
                obtain rfl : body = ['f'] := by injection hb with _ h; rw [← h]
                have hc : c = '\x0c' := Char.ext (UInt32.toNat.inj h12)
                rw [hc]
                rfl
              · rw [if_neg h12] at hb
                by_cases h13 : c.toNat = 13
                · rw [if_pos h13] at hb
                  obtain rfl : body = ['r'] := by injection hb with _ h; rw [← h]
                  have hc : c = '\r' := Char.ext (UInt32.toNat.inj h13)
                  rw [hc]
                  rfl
                · rw [if_neg h13] at hb
                  obtain rfl : body = 'u' :: hex4 c.toNat := by
                    injection hb with _ h; rw [← h]
                  show decodeEscape ('u' :: (hex4 c.toNat ++ t)) = some (c, t)
                  simp only [decodeEscape,
                    fromHex4_hex4 (show c.toNat < 65536 by omega) t]
                  rw [if_neg (by omega), if_neg (by omega), Char.ofNat_toNat]
      · rw [if_neg h32] at hb
        by_cases hea : (ea && decide (126 < c.toNat)) = true
        · rw [if_pos hea] at hb
          by_cases hbmp : c.toNat < 65536
          · rw [if_pos hbmp] at hb
            obtain rfl : body = 'u' :: hex4 c.toNat := by
              injection hb with _ h; rw [← h]
            show decodeEscape ('u' :: (hex4 c.toNat ++ t)) = some (c, t)
            have hval := char_toNat_valid c
            simp only [decodeEscape, fromHex4_hex4 hbmp t]
            rw [if_neg (by omega), if_neg (by omega), Char.ofNat_toNat]
          · rw [if_neg hbmp] at hb
            have hval := char_toNat_valid c
            have hhi : 55296 + (c.toNat - 65536) / 1024 < 65536 := by omega
            have hlo : 56320 + (c.toNat - 65536) % 1024 < 65536 := by
              have := Nat.mod_lt (c.toNat - 65536) (show 0 < 1024 by norm_num)
              omega
            obtain rfl : body = 'u' :: (hex4 (55296 + (c.toNat - 65536) / 1024) ++
                '\\' :: 'u' :: hex4 (56320 + (c.toNat - 65536) % 1024)) := by
              injection hb with _ h; rw [← h]
              simp
            have hdiv : (c.toNat - 65536) / 1024 < 1024 := by
              apply Nat.div_lt_of_lt_mul
              omega
            have hmod := Nat.mod_lt (c.toNat - 65536) (show 0 < 1024 by norm_num)
            have hc1a : 55296 ≤ 55296 + (c.toNat - 65536) / 1024 := by omega
            have hc1b : 55296 + (c.toNat - 65536) / 1024 ≤ 56319 := by omega
            have hc2a : 56320 ≤ 56320 + (c.toNat - 65536) % 1024 := by omega
            have hc2b : 56320 + (c.toNat - 65536) % 1024 ≤ 57343 := by omega
            have hcomb : 65536 + (55296 + (c.toNat - 65536) / 1024 - 55296) * 1024 +
                (56320 + (c.toNat - 65536) % 1024 - 56320) = c.toNat := by
              have := Nat.div_add_mod (c.toNat - 65536) 1024
              omega
            show decodeEscape ('u' :: ((hex4 (55296 + (c.toNat - 65536) / 1024) ++
                '\\' :: 'u' :: hex4 (56320 + (c.toNat - 65536) % 1024)) ++ t)) =
              some (c, t)
            rw [List.append_assoc]
            simp only [List.cons_append]
            simp only [decodeEscape, fromHex4_hex4 hhi, fromHex4_hex4 hlo]
            rw [if_pos (show 55296 ≤ 55296 + (c.toNat - 65536) / 1024 ∧
                55296 + (c.toNat - 65536) / 1024 ≤ 56319 from ⟨hc1a, hc1b⟩)]
            rw [if_pos (show 56320 ≤ 56320 + (c.toNat - 65536) % 1024 ∧
                56320 + (c.toNat - 65536) % 1024 ≤ 57343 from ⟨hc2a, hc2b⟩)]
            rw [hcomb, Char.ofNat_toNat]
        · rw [if_neg hea] at hb
          injection hb with h1 _
          exact absurd (show c.toNat = 92 by subst h1; decide) h92

/-- `escControl` always begins with a backslash. -/
theorem escControl_cons (n : Nat) : ∃ body, escControl n = '\\' :: body := by
  unfold escControl
  split_ifs <;> exact ⟨_, rfl⟩

/-- `encChar` either emits an escape (starting with a backslash) or passes
the character through unchanged (and then it is unescaped-safe). -/
theorem encChar_cases (ea : Bool) (c : Char) :
    (∃ body, encChar ea c = '\\' :: body) ∨
    (encChar ea c = [c] ∧ c ≠ '"' ∧ c ≠ '\\' ∧ ¬c.toNat < 32) := by
  unfold encChar
  by_cases h92 : c.toNat = 92
  · exact Or.inl ⟨_, by rw [if_pos h92]⟩
  · rw [if_neg h92]
    by_cases h34 : c.toNat = 34
    · exact Or.inl ⟨_, by rw [if_pos h34]⟩
    · rw [if_neg h34]
      by_cases h32 : c.toNat < 32
      · rw [if_pos h32]
        obtain ⟨body, hb⟩ := escControl_cons c.toNat
        exact Or.inl ⟨body, hb⟩
      · rw [if_neg h32]
        have hq : c ≠ '"' := fun h => h34 (by rw [h]; rfl)
        have hbs : c ≠ '\\' := fun h => h92 (by rw [h]; rfl)
        by_cases hea : (ea && decide (126 < c.toNat)) = true
        · rw [if_pos hea]
          by_cases hbmp : c.toNat < 65536
          · exact Or.inl ⟨_, by rw [if_pos hbmp]⟩
          · refine Or.inl ⟨'u' :: (hex4 (55296 + (c.toNat - 65536) / 1024) ++
              '\\' :: 'u' :: hex4 (56320 + (c.toNat - 65536) % 1024)), ?_⟩
            rw [if_neg hbmp]
            simp
        · rw [if_neg hea]
          exact Or.inr ⟨rfl, hq, hbs, h32⟩

/-- `encChar` never produces the empty chunk. -/
theorem encChar_ne_nil (ea : Bool) (c : Char) : encChar ea c ≠ [] := by
  rcases encChar_cases ea c with ⟨body, hb⟩ | ⟨hb, _, _, _⟩ <;> simp [hb]

/-- The encoded body is at least as long as the source text. -/
theorem enc_flatten_length (ea : Bool) (cs : List Char) :
    cs.length ≤ ((cs.map (encChar ea)).flatten).length := by
  induction cs with
  | nil => simp
  | cons c cs ih =>
    simp only [List.map_cons, List.flatten_cons, List.length_append,
      List.length_cons]
    have h1 : 1 ≤ (encChar ea c).length :=
      List.length_pos.mpr (encChar_ne_nil ea c)
    omega

/-- `decodeStr` step: closing quote. -/
theorem decodeStr_quote (fuel : Nat) (r : List Char) :
    decodeStr (fuel + 1) ('"' :: r) = some ([], r) := by
  simp [decodeStr]

/-- `decodeStr` step: backslash escape. -/
theorem decodeStr_backslash (fuel : Nat) (r : List Char) :
    decodeStr (fuel + 1) ('\\' :: r) =
      match decodeEscape r with
      | some (d, r₁) =>
        match decodeStr fuel r₁ with
        | some (s, r₂) => some (d :: s, r₂)
        | none => none
      | none => none := by
  simp [decodeStr]

/-- `decodeStr` step: ordinary character. -/
theorem decodeStr_plain (fuel : Nat) (c : Char) (r : List Char)
    (h1 : c ≠ '"') (h2 : c ≠ '\\') (h3 : ¬c.toNat < 32) :
    decodeStr (fuel + 1) (c :: r) =
      match decodeStr fuel r with
      | some (s, r₂) => some (c :: s, r₂)
      | none => none := by
  simp [decodeStr, h1, h2, h3]

/-- The encoded body of a string, followed by the closing quote, decodes
back to the original characters. -/
theorem decodeStr_enc (ea : Bool) :
    ∀ (cs : List Char) (fuel : Nat) (rest : List Char), cs.length + 1 ≤ fuel →
      decodeStr fuel ((cs.map (encChar ea)).flatten ++ '"' :: rest) =
        some (cs, rest) := by
  intro cs
  induction cs with
  | nil =>
    intro fuel rest hfuel
    obtain ⟨f, rfl⟩ : ∃ f, fuel = f + 1 := ⟨fuel - 1, by omega⟩
    simp only [List.map_nil, List.flatten_nil, List.nil_append]
    exact decodeStr_quote f rest
  | cons c cs ih =>
    intro fuel rest hfuel
    obtain ⟨f, rfl⟩ : ∃ f, fuel = f + 1 := ⟨fuel - 1, by omega⟩
    simp only [List.map_cons, List.flatten_cons, List.append_assoc]
    rcases encChar_cases ea c with ⟨body, hb⟩ | ⟨hb, hq, hbs, h32⟩
    · rw [hb]
      simp only [List.cons_append]
      rw [decodeStr_backslash, decodeEscape_encChar ea c body _ hb]
      simp only [ih f rest (by simp at hfuel; omega)]
    · rw [hb]
      simp only [List.singleton_append]
      rw [decodeStr_plain f c _ hq hbs h32]
      simp only [ih f rest (by simp at hfuel; omega)]

/-! #### Reading back serialized values -/

/-- `skipWs` leaves a non-whitespace head alone. -/
theorem skipWs_cons (c : Char) (r : List Char)
    (h : ¬(c = ' ' ∨ c = '\t' ∨ c = '\n' ∨ c = '\r')) :
    skipWs (c :: r) = c :: r := by
  simp [skipWs, h]

/-- `skipWs` eats a leading space. -/
theorem skipWs_space (r : List Char) : skipWs (' ' :: r) = skipWs r := by
  simp [skipWs]

/-- Digits are distinct from any non-digit character. -/
theorem digit_ne {c : Char} (h : isDigitC c = true) (d : Char)
    (hd : isDigitC d = false) : c ≠ d := by
  intro he
  subst he
  rw [h] at hd
  cases hd

/-- Digits are not JSON whitespace. -/
theorem digit_not_ws {c : Char} (h : isDigitC c = true) :
    ¬(c = ' ' ∨ c = '\t' ∨ c = '\n' ∨ c = '\r') := by
  rintro (rfl | rfl | rfl | rfl) <;> cases h

/-- A value separator is also a number boundary. -/
theorem numBoundary_of_isSep {rest : List Char} (h : isSep rest = true) :
    numBoundary rest = true := by
  cases rest with
  | nil => rfl
  | cons c cs =>
    simp only [isSep, Bool.or_eq_true, decide_eq_true_eq] at h
    rcases h with (rfl | rfl) | rfl <;> rfl

/-- Reading the serialized `null`. -/
theorem parseVal_null (fuel : Nat) (r : List Char) :
    parseVal (fuel + 1) ('n' :: 'u' :: 'l' :: 'l' :: r) = some (.null, r) := by
  have hsw := skipWs_cons 'n' ('u' :: 'l' :: 'l' :: r) (by decide)
  simp only [parseVal, hsw]
  rfl

/-- Reading the serialized `true`. -/
theorem parseVal_true (fuel : Nat) (r : List Char) :
    parseVal (fuel + 1) ('t' :: 'r' :: 'u' :: 'e' :: r) = some (.bool true, r) := by
  have hsw := skipWs_cons 't' ('r' :: 'u' :: 'e' :: r) (by decide)
  simp only [parseVal, hsw]
  rfl

/-- Reading the serialized `false`. -/
theorem parseVal_false (fuel : Nat) (r : List Char) :
    parseVal (fuel + 1) ('f' :: 'a' :: 'l' :: 's' :: 'e' :: r) =
      some (.bool false, r) := by
  have hsw := skipWs_cons 'f' ('a' :: 'l' :: 's' :: 'e' :: r) (by decide)
  simp only [parseVal, hsw]
  rfl

/-- A number-headed input dispatches to `parseNumber`. -/
theorem parseVal_number_head (fuel : Nat) (c : Char) (r : List Char)
    (hc : isDigitC c = true ∨ c = '-') :
    parseVal (fuel + 1) (c :: r) = parseNumber (c :: r) := by
  rcases hc with hc | rfl
  · have hsw := skipWs_cons c r (digit_not_ws hc)
    simp only [parseVal, hsw]
    rw [if_neg (digit_ne hc _ (by decide)), if_neg (digit_ne hc _ (by decide)),
      if_neg (digit_ne hc _ (by decide)), if_neg (digit_ne hc _ (by decide)),
      if_neg (digit_ne hc _ (by decide)), if_neg (digit_ne hc _ (by decide))]
  · have hsw := skipWs_cons '-' r (by decide)
    simp only [parseVal, hsw]
    rfl

/-- Reading a serialized string literal. -/
theorem parseVal_string (ea : Bool) (fuel : Nat) (s : String) (rest : List Char) :
    parseVal (fuel + 1) (encStr ea s ++ rest) = some (.str s, rest) := by
  have hsh : encStr ea s ++ rest =
      '"' :: ((s.data.map (encChar ea)).flatten ++ '"' :: rest) := by
    simp [encStr]
  rw [hsh]
  have hsw := skipWs_cons '"'
    ((s.data.map (encChar ea)).flatten ++ '"' :: rest) (by decide)
  simp only [parseVal, hsw]
  rw [if_pos trivial]
  have hlen : s.data.length + 1 ≤
      ((s.data.map (encChar ea)).flatten ++ '"' :: rest).length + 1 := by
    have := enc_flatten_length ea s.data
    simp only [List.length_append, List.length_cons]
    omega
  rw [decodeStr_enc ea s.data _ rest hlen]
  rfl

/-- `parseVal` ignores a leading space. -/
theorem parseVal_ws (fuel : Nat) (l : List Char) :
    parseVal (fuel + 1) (' ' :: l) = parseVal (fuel + 1) l := by
  unfold parseVal
  rw [skipWs_space]

/-- `parseMembers` ignores a leading space. -/
theorem parseMembers_ws (fuel : Nat) (l : List Char) :
    parseMembers (fuel + 1) (' ' :: l) = parseMembers (fuel + 1) l := by
  unfold parseMembers
  rw [skipWs_space]

/-- Every value has positive fuel size. -/
theorem jsize_pos (v : JsonValue) : 1 ≤ jsize v := by
  cases v <;> simp [jsize]

/-- Member lists have positive fuel size. -/
theorem msize_pos (fs : List (String × JsonValue)) : 1 ≤ msize fs := by
  cases fs with
  | nil => simp [msize]
  | cons f fs => simp only [msize]; omega

/-- Element lists have positive fuel size. -/
theorem esize_pos (vs : List JsonValue) : 1 ≤ esize vs := by
  cases vs with
  | nil => simp [esize]
  | cons v vs => simp only [esize]; omega

/-- The serialization of any value starts with a character that is neither
whitespace nor a closing bracket. -/
theorem dumps_head (ea : Bool) (v : JsonValue) :
    ∃ c t, dumps ea v = c :: t ∧
      ¬(c = ' ' ∨ c = '\t' ∨ c = '\n' ∨ c = '\r') ∧ c ≠ ']' := by
  cases v with
  | obj fs =>
    cases fs with
    | nil => exact ⟨'\x7b', _, rfl, by decide, by decide⟩
    | cons f fs => exact ⟨'\x7b', _, rfl, by decide, by decide⟩
  | arr vs =>
    cases vs with
    | nil => exact ⟨'[', _, rfl, by decide, by decide⟩
    | cons w ws => exact ⟨'[', _, rfl, by decide, by decide⟩
  | str s => exact ⟨'"', _, rfl, by decide, by decide⟩
  | num n =>
    show ∃ c t, intRepr n = c :: t ∧ _
    unfold intRepr
    by_cases hn : n < 0
    · rw [if_pos hn]
      exact ⟨'-', _, rfl, by decide, by decide⟩
    · rw [if_neg hn, List.nil_append]
      obtain ⟨c, cs, hcc⟩ : ∃ c cs, natDigits n.natAbs = c :: cs := by
        cases h : natDigits n.natAbs with
        | nil => exact absurd h (natDigits_ne_nil _)
        | cons c cs => exact ⟨c, cs, rfl⟩
      have hcd : isDigitC c = true := natDigits_digits _ c (by rw [hcc]; simp)
      exact ⟨c, cs, hcc, digit_not_ws hcd, digit_ne hcd _ (by decide)⟩
  | fnum m e =>
    show ∃ c t, floatRepr m e = c :: t ∧ _
    unfold floatRepr
    by_cases hm : m < 0
    · rw [if_pos hm]
      exact ⟨'-', _, rfl, by decide, by decide⟩
    · rw [if_neg hm, List.nil_append]
      obtain ⟨c, cs, hcc⟩ : ∃ c cs, natDigits (m.natAbs / 10 ^ (e + 1)) = c :: cs := by
        cases h : natDigits (m.natAbs / 10 ^ (e + 1)) with
        | nil => exact absurd h (natDigits_ne_nil _)
        | cons c cs => exact ⟨c, cs, rfl⟩
      have hcd : isDigitC c = true := natDigits_digits _ c (by rw [hcc]; simp)
      refine ⟨c, cs ++ '.' :: natDigitsPadded (m.natAbs % 10 ^ (e + 1)) (e + 1), ?_,
        digit_not_ws hcd, digit_ne hcd _ (by decide)⟩
      rw [hcc]
      rfl
  | bool b =>
    cases b with
    | true => exact ⟨'t', _, rfl, by decide, by decide⟩
    | false => exact ⟨'f', _, rfl, by decide, by decide⟩
  | null => exact ⟨'n', _, rfl, by decide, by decide⟩

/-- Reading the serialized empty object. -/
theorem parseVal_obj_empty (fuel : Nat) (rest : List Char) :
    parseVal (fuel + 1) ('\x7b' :: '\x7d' :: rest) = some (.obj [], rest) := by
  have hsw1 := skipWs_cons '\x7b' ('\x7d' :: rest) (by decide)
  have hsw2 := skipWs_cons '\x7d' rest (by decide)
  simp only [parseVal, hsw1, hsw2]
  rfl

/-- An opening brace followed by a string key dispatches to
`parseMembers`. -/
theorem parseVal_brace_quote (fuel : Nat) (t : List Char) :
    parseVal (fuel + 1) ('\x7b' :: '"' :: t) =
      match parseMembers fuel ('"' :: t) with
      | some (fs, r₂) => some (.obj fs, r₂)
      | none => none := by
  have hsw1 := skipWs_cons '\x7b' ('"' :: t) (by decide)
  have hsw2 := skipWs_cons '"' t (by decide)
  simp only [parseVal, hsw1, hsw2]
  rfl

/-- Reading the serialized empty array. -/
theorem parseVal_arr_empty (fuel : Nat) (rest : List Char) :
    parseVal (fuel + 1) ('[' :: ']' :: rest) = some (.arr [], rest) := by
  have hsw1 := skipWs_cons '[' (']' :: rest) (by decide)
  have hsw2 := skipWs_cons ']' rest (by decide)
  simp only [parseVal, hsw1, hsw2]
  rfl

/-- An opening bracket followed by an element dispatches to
`parseElems`. -/
theorem parseVal_bracket (fuel : Nat) (c : Char) (t : List Char)
    (hws : ¬(c = ' ' ∨ c = '\t' ∨ c = '\n' ∨ c = '\r')) (hbr : c ≠ ']') :
    parseVal (fuel + 1) ('[' :: c :: t) =
      match parseElems fuel (c :: t) with
      | some (vs, r₂) => some (.arr vs, r₂)
      | none => none := by
  have hsw1 := skipWs_cons '[' (c :: t) (by decide)
  have hsw2 := skipWs_cons c t hws
  simp only [parseVal, hsw1, hsw2]
  rw [if_neg (show ('[' : Char) ≠ '\x7b' by decide), if_pos trivial]
  split
  · rename_i r₁ heq
    injection heq with h1 _
    exact absurd h1 hbr
  · rfl

/-- `parseElems` ignores a leading space. -/
theorem parseElems_ws (fuel : Nat) (l : List Char) :
    parseElems (fuel + 1) (' ' :: l) = parseElems (fuel + 1) l := by
  cases fuel with
  | zero => rfl
  | succ h =>
    unfold parseElems
    rw [parseVal_ws]

/-- Reading one `"key": value` member: the continuation sees the input
right after the value. -/
theorem parseMembers_member (ea : Bool) (k : String) (v : JsonValue)
    (T : List Char) (g : Nat)
    (hv : ∀ fuel rest, jsize v ≤ fuel → isSep rest = true →
        parseVal fuel (dumps ea v ++ rest) = some (v, rest))
    (hg : 1 ≤ g) (hjv : jsize v ≤ g) (hT : isSep T = true) :
    parseMembers (g + 1) (dumpsMember ea (k, v) ++ T) =
      (match skipWs T with
       | ',' :: r₄ =>
         match parseMembers g r₄ with
         | some (fs, r₅) => some ((k, v) :: fs, r₅)
         | none => none
       | '\x7d' :: r₄ => some ([(k, v)], r₄)
       | _ => none) := by
  obtain ⟨h, rfl⟩ : ∃ h, g = h + 1 := ⟨g - 1, by omega⟩
  have hsh : dumpsMember ea (k, v) ++ T =
      '"' :: ((k.data.map (encChar ea)).flatten ++
        '"' :: ':' :: ' ' :: (dumps ea v ++ T)) := by
    simp [dumpsMember, encStr]
  rw [hsh]
  have hsw := skipWs_cons '"'
    ((k.data.map (encChar ea)).flatten ++ '"' :: ':' :: ' ' :: (dumps ea v ++ T))
    (by decide)
  simp only [parseMembers, hsw]
  have hlen : k.data.length + 1 ≤
      ((k.data.map (encChar ea)).flatten ++
        '"' :: ':' :: ' ' :: (dumps ea v ++ T)).length + 1 := by
    have := enc_flatten_length ea k.data
    simp only [List.length_append, List.length_cons]
    omega
  rw [decodeStr_enc ea k.data _ _ hlen]
  have hsw2 := skipWs_cons ':' (' ' :: (dumps ea v ++ T)) (by decide)
  simp only [hsw2]
  rw [parseVal_ws, hv (h + 1) T hjv hT]

/-- Reading back the serialized members of a non-empty object. -/
theorem parseMembers_dumps (ea : Bool) :
    ∀ (fs : List (String × JsonValue)) (k : String) (v : JsonValue),
      (∀ p ∈ (k, v) :: fs, ∀ fuel rest, jsize p.2 ≤ fuel → isSep rest = true →
          parseVal fuel (dumps ea p.2 ++ rest) = some (p.2, rest)) →
      ∀ fuel rest, msize ((k, v) :: fs) ≤ fuel → isSep rest = true →
        parseMembers fuel
          (dumpsMember ea (k, v) ++ (dumpsMembersRest ea fs ++ '\x7d' :: rest)) =
          some ((k, v) :: fs, rest) := by
  intro fs
  induction fs with
  | nil =>
    intro k v hP fuel rest hfuel hsep
    simp only [msize] at hfuel
    obtain ⟨g, rfl⟩ : ∃ g, fuel = g + 1 := ⟨fuel - 1, by have := jsize_pos v; omega⟩
    rw [show dumpsMembersRest ea [] ++ '\x7d' :: rest = '\x7d' :: rest from rfl]
    rw [parseMembers_member ea k v ('\x7d' :: rest) g
      (hP (k, v) (by simp)) (by have := jsize_pos v; omega)
      (by have := jsize_pos v; omega) rfl]
    have hsw := skipWs_cons '\x7d' rest (by decide)
    simp only [hsw]
  | cons gp gs ih =>
    obtain ⟨gk, gv⟩ := gp
    intro k v hP fuel rest hfuel hsep
    simp only [msize] at hfuel
    have hms := msize_pos gs
    have hjv := jsize_pos v
    have hjg := jsize_pos gv
    obtain ⟨f0, rfl⟩ : ∃ f0, fuel = f0 + 1 := ⟨fuel - 1, by omega⟩
    have hT : dumpsMembersRest ea ((gk, gv) :: gs) ++ '\x7d' :: rest =
        ',' :: ' ' :: (dumpsMember ea (gk, gv) ++
          (dumpsMembersRest ea gs ++ '\x7d' :: rest)) := by
      simp [dumpsMembersRest]
    rw [hT]
    rw [parseMembers_member ea k v
      (',' :: ' ' :: (dumpsMember ea (gk, gv) ++
        (dumpsMembersRest ea gs ++ '\x7d' :: rest))) f0
      (hP (k, v) (by simp)) (by omega) (by omega) rfl]
    have hsw := skipWs_cons ','
      (' ' :: (dumpsMember ea (gk, gv) ++
        (dumpsMembersRest ea gs ++ '\x7d' :: rest))) (by decide)
    simp only [hsw]
    obtain ⟨f1, rfl⟩ : ∃ f1, f0 = f1 + 1 := ⟨f0 - 1, by omega⟩
    rw [parseMembers_ws]
    rw [ih gk gv (fun p hp => hP p (by simp at hp ⊢; tauto)) (f1 + 1) rest
      (by simp only [msize]; omega) hsep]

/-- Reading back the serialized elements of a non-empty array. -/
theorem parseElems_dumps (ea : Bool) :
    ∀ (vs : List JsonValue) (v : JsonValue),
      (∀ w ∈ v :: vs, ∀ fuel rest, jsize w ≤ fuel → isSep rest = true →
          parseVal fuel (dumps ea w ++ rest) = some (w, rest)) →
      ∀ fuel rest, esize (v :: vs) ≤ fuel → isSep rest = true →
        parseElems fuel (dumps ea v ++ (dumpsElemsRest ea vs ++ ']' :: rest)) =
          some (v :: vs, rest) := by
  intro vs
  induction vs with
  | nil =>
    intro v hP fuel rest hfuel hsep
    simp only [esize] at hfuel
    have hjv := jsize_pos v
    obtain ⟨g, rfl⟩ : ∃ g, fuel = g + 1 := ⟨fuel - 1, by omega⟩
    rw [show dumpsElemsRest ea [] ++ ']' :: rest = ']' :: rest from rfl]
    unfold parseElems
    rw [hP v (by simp) g (']' :: rest) (by omega) rfl]
    have hsw := skipWs_cons ']' rest (by decide)
    simp only [hsw]
  | cons w ws ih =>
    intro v hP fuel rest hfuel hsep
    simp only [esize] at hfuel
    have hes := esize_pos ws
    have hjv := jsize_pos v
    have hjw := jsize_pos w
    obtain ⟨f0, rfl⟩ : ∃ f0, fuel = f0 + 1 := ⟨fuel - 1, by omega⟩
    have hT : dumpsElemsRest ea (w :: ws) ++ ']' :: rest =
        ',' :: ' ' :: (dumps ea w ++ (dumpsElemsRest ea ws ++ ']' :: rest)) := by
      simp [dumpsElemsRest]
    rw [hT]
    unfold parseElems
    rw [hP v (by simp) f0
      (',' :: ' ' :: (dumps ea w ++ (dumpsElemsRest ea ws ++ ']' :: rest)))
      (by omega) rfl]
    have hsw := skipWs_cons ','
      (' ' :: (dumps ea w ++ (dumpsElemsRest ea ws ++ ']' :: rest))) (by decide)
    simp only [hsw]
    obtain ⟨f1, rfl⟩ : ∃ f1, f0 = f1 + 1 := ⟨f0 - 1, by omega⟩
    rw [parseElems_ws]
    rw [ih w (fun p hp => hP p (by simp at hp ⊢; tauto)) (f1 + 1) rest
      (by simp only [esize]; omega) hsep]

/-- Round trip: reading back the serialization of any value, in any
context that follows a value with a separator or the end of input. -/
theorem parseVal_dumps (ea : Bool) :
    ∀ v : JsonValue, ∀ (fuel : Nat) (rest : List Char), jsize v ≤ fuel →
      isSep rest = true →
      parseVal fuel (dumps ea v ++ rest) = some (v, rest) := by
  intro v
  induction v using JsonValue.myInduction with
  | hobj fs ihm =>
    intro fuel rest hfuel hsep
    cases fs with
    | nil =>
      obtain ⟨f, rfl⟩ : ∃ f, fuel = f + 1 := ⟨fuel - 1, by
        simp only [jsize, msize] at hfuel; omega⟩
      rw [show dumps ea (.obj []) ++ rest = '\x7b' :: '\x7d' :: rest from rfl]
      exact parseVal_obj_empty f rest
    | cons p fs =>
      obtain ⟨pk, pv⟩ := p
      simp only [jsize, msize] at hfuel
      have h1 := jsize_pos pv
      have h2 := msize_pos fs
      obtain ⟨f, rfl⟩ : ∃ f, fuel = f + 1 := ⟨fuel - 1, by omega⟩
      have hmem : dumps ea (.obj ((pk, pv) :: fs)) ++ rest =
          '\x7b' :: (dumpsMember ea (pk, pv) ++
            (dumpsMembersRest ea fs ++ '\x7d' :: rest)) := by
        show ('\x7b' :: (dumpsMember ea (pk, pv) ++ dumpsMembersRest ea fs) ++
          ['\x7d']) ++ rest = _
        simp only [List.cons_append, List.append_assoc, List.singleton_append,
          List.nil_append]
      have hbk : dumpsMember ea (pk, pv) =
          '"' :: (((pk.data.map (encChar ea)).flatten ++ ['"']) ++
            ':' :: ' ' :: dumps ea pv) := rfl
      rw [hmem, hbk, List.cons_append]
      rw [parseVal_brace_quote f _]
      rw [← List.cons_append, ← hbk]
      rw [parseMembers_dumps ea fs pk pv ihm f rest (by simp only [msize]; omega) hsep]
  | harr vs ihv =>
    intro fuel rest hfuel hsep
    cases vs with
    | nil =>
      obtain ⟨f, rfl⟩ : ∃ f, fuel = f + 1 := ⟨fuel - 1, by
        simp only [jsize, esize] at hfuel; omega⟩
      rw [show dumps ea (.arr []) ++ rest = '[' :: ']' :: rest from rfl]
      exact parseVal_arr_empty f rest
    | cons w ws =>
      simp only [jsize, esize] at hfuel
      have h1 := jsize_pos w
      have h2 := esize_pos ws
      obtain ⟨f, rfl⟩ : ∃ f, fuel = f + 1 := ⟨fuel - 1, by omega⟩
      have hmem : dumps ea (.arr (w :: ws)) ++ rest =
          '[' :: (dumps ea w ++ (dumpsElemsRest ea ws ++ ']' :: rest)) := by
        show ('[' :: (dumps ea w ++ dumpsElemsRest ea ws) ++ [']']) ++ rest = _
        simp only [List.cons_append, List.append_assoc, List.singleton_append,
          List.nil_append]
      obtain ⟨c, t, hct, hws, hbr⟩ := dumps_head ea w
      rw [hmem, hct, List.cons_append]
      rw [parseVal_bracket f c _ hws hbr]
      rw [← List.cons_append, ← hct]
      rw [parseElems_dumps ea ws w ihv f rest (by simp only [esize]; omega) hsep]
  | hstr s =>
    intro fuel rest hfuel _
    obtain ⟨f, rfl⟩ : ∃ f, fuel = f + 1 := ⟨fuel - 1, by
      simp only [jsize] at hfuel; omega⟩
    exact parseVal_string ea f s rest
  | hnum n =>
    intro fuel rest hfuel hsep
    obtain ⟨f, rfl⟩ : ∃ f, fuel = f + 1 := ⟨fuel - 1, by
      simp only [jsize] at hfuel; omega⟩
    have hx : ∃ c cs, intRepr n = c :: cs ∧ (isDigitC c = true ∨ c = '-') := by
      unfold intRepr
      by_cases hn : n < 0
      · rw [if_pos hn]
        exact ⟨'-', _, rfl, Or.inr rfl⟩
      · rw [if_neg hn, List.nil_append]
        obtain ⟨c, cs, hcc⟩ : ∃ c cs, natDigits n.natAbs = c :: cs := by
          cases h : natDigits n.natAbs with
          | nil => exact absurd h (natDigits_ne_nil _)
          | cons c cs => exact ⟨c, cs, rfl⟩
        exact ⟨c, cs, hcc, Or.inl (natDigits_digits _ c (by rw [hcc]; simp))⟩
    obtain ⟨c, cs, hcc, hc⟩ := hx
    have hsh : dumps ea (.num n) ++ rest = c :: (cs ++ rest) := by
      show intRepr n ++ rest = _
      rw [hcc]
      rfl
    rw [hsh, parseVal_number_head f c _ hc,
      show c :: (cs ++ rest) = intRepr n ++ rest from by rw [hcc]; rfl]
    exact parseNumber_intRepr n rest (numBoundary_of_isSep hsep)
  | hfnum m e =>
    intro fuel rest hfuel hsep
    obtain ⟨f, rfl⟩ : ∃ f, fuel = f + 1 := ⟨fuel - 1, by
      simp only [jsize] at hfuel; omega⟩
    have hx : ∃ c cs, floatRepr m e = c :: cs ∧ (isDigitC c = true ∨ c = '-') := by
      unfold floatRepr
      by_cases hm : m < 0
      · rw [if_pos hm]
        exact ⟨'-', _, rfl, Or.inr rfl⟩
      · rw [if_neg hm, List.nil_append]
        obtain ⟨c, cs, hcc⟩ : ∃ c cs, natDigits (m.natAbs / 10 ^ (e + 1)) = c :: cs := by
          cases h : natDigits (m.natAbs / 10 ^ (e + 1)) with
          | nil => exact absurd h (natDigits_ne_nil _)
          | cons c cs => exact ⟨c, cs, rfl⟩
        refine ⟨c, cs ++ '.' :: natDigitsPadded (m.natAbs % 10 ^ (e + 1)) (e + 1),
          ?_, Or.inl (natDigits_digits _ c (by rw [hcc]; simp))⟩
        rw [hcc]
        rfl
    obtain ⟨c, cs, hcc, hc⟩ := hx
    have hsh : dumps ea (.fnum m e) ++ rest = c :: (cs ++ rest) := by
      show floatRepr m e ++ rest = _
      rw [hcc]
      rfl
    rw [hsh, parseVal_number_head f c _ hc,
      show c :: (cs ++ rest) = floatRepr m e ++ rest from by rw [hcc]; rfl]
    exact parseNumber_floatRepr m e rest (numBoundary_of_isSep hsep)
  | hbool b =>
    intro fuel rest hfuel _
    obtain ⟨f, rfl⟩ : ∃ f, fuel = f + 1 := ⟨fuel - 1, by
      simp only [jsize] at hfuel; omega⟩
    cases b with
    | true =>
      rw [show dumps ea (.bool true) ++ rest = 't' :: 'r' :: 'u' :: 'e' :: rest
        from rfl]
      exact parseVal_true f rest
    | false =>
      rw [show dumps ea (.bool false) ++ rest =
        'f' :: 'a' :: 'l' :: 's' :: 'e' :: rest from rfl]
      exact parseVal_false f rest
  | hnull =>
    intro fuel rest hfuel _
    obtain ⟨f, rfl⟩ : ∃ f, fuel = f + 1 := ⟨fuel - 1, by
      simp only [jsize] at hfuel; omega⟩
    rw [show dumps ea .null ++ rest = 'n' :: 'u' :: 'l' :: 'l' :: rest from rfl]
    exact parseVal_null f rest

/-- A serialized string literal has at least its two quotes. -/
theorem encStr_length (ea : Bool) (s : String) : 2 ≤ (encStr ea s).length := by
  simp only [encStr, List.length_cons, List.length_append, List.length_singleton]
  omega

/-- Serializations are never empty. -/
theorem dumps_length_pos (ea : Bool) (v : JsonValue) :
    1 ≤ (dumps ea v).length := by
  obtain ⟨c, t, h, -, -⟩ := dumps_head ea v
  rw [h]
  simp

/-- A serialized member is its value plus at least four characters
(the key quotes and the `": "`). -/
theorem dumpsMember_length (ea : Bool) (p : String × JsonValue) :
    4 + (dumps ea p.2).length ≤ (dumpsMember ea p).length := by
  obtain ⟨k, v⟩ := p
  show 4 + _ ≤ (encStr ea k ++ ':' :: ' ' :: dumps ea v).length
  have := encStr_length ea k
  simp only [List.length_append, List.length_cons]
  omega

/-- The member-list fuel measure is bounded by the serialized length. -/
theorem msize_le (ea : Bool) (gs : List (String × JsonValue))
    (h : ∀ p ∈ gs, jsize p.2 ≤ (dumps ea p.2).length) :
    msize gs ≤ (dumpsMembersRest ea gs).length + 1 := by
  induction gs with
  | nil => simp [msize, dumpsMembersRest]
  | cons g gs ih =>
    have h1 := h g (by simp)
    have h2 := ih (fun p hp => h p (by simp [hp]))
    have h3 := dumpsMember_length ea g
    simp only [msize, dumpsMembersRest, List.length_cons, List.length_append]
    omega

/-- The element-list fuel measure is bounded by the serialized length. -/
theorem esize_le (ea : Bool) (ws : List JsonValue)
    (h : ∀ w ∈ ws, jsize w ≤ (dumps ea w).length) :
    esize ws ≤ (dumpsElemsRest ea ws).length + 1 := by
  induction ws with
  | nil => simp [esize, dumpsElemsRest]
  | cons w ws ih =>
    have h1 := h w (by simp)
    have h2 := ih (fun p hp => h p (by simp [hp]))
    simp only [esize, dumpsElemsRest, List.length_cons, List.length_append]
    omega

/-- The fuel a serialized value needs is at most its length. -/
theorem jsize_le_dumps (ea : Bool) : ∀ v, jsize v ≤ (dumps ea v).length := by
  intro v
  induction v using JsonValue.myInduction with
  | hobj fs ih =>
    cases fs with
    | nil => simp [jsize, msize, dumps]
    | cons f fs =>
      have h1 := ih f (by simp)
      have h2 := msize_le ea fs (fun p hp => ih p (by simp [hp]))
      have h3 := dumpsMember_length ea f
      show 1 + msize (f :: fs) ≤
        ('\x7b' :: (dumpsMember ea f ++ dumpsMembersRest ea fs) ++
          ['\x7d']).length
      simp only [msize, List.length_cons, List.length_append,
        List.length_singleton]
      omega
  | harr vs ih =>
    cases vs with
    | nil => simp [jsize, esize, dumps]
    | cons w ws =>
      have h1 := ih w (by simp)
      have h2 := esize_le ea ws (fun p hp => ih p (by simp [hp]))
      have h3 := dumps_length_pos ea w
      show 1 + esize (w :: ws) ≤
        ('[' :: (dumps ea w ++ dumpsElemsRest ea ws) ++ [']']).length
      simp only [esize, List.length_cons, List.length_append,
        List.length_singleton]
      omega
  | hstr s =>
    have := encStr_length ea s
    show jsize (.str s) ≤ (encStr ea s).length
    simp only [jsize]
    omega
  | hnum n => exact dumps_length_pos ea (.num n)
  | hfnum m e => exact dumps_length_pos ea (.fnum m e)
  | hbool b => exact dumps_length_pos ea (.bool b)
  | hnull => exact dumps_length_pos ea .null

/-- `json.loads` recovers any value from its `json.dumps` text. -/
theorem loads_dumps (ea : Bool) (v : JsonValue) :
    loads (String.mk (dumps ea v)) = some v := by
  unfold loads
  have h := parseVal_dumps ea v ((String.mk (dumps ea v)).length + 1) []
    (by
      have := jsize_le_dumps ea v
      simp only [String.length, String.mk]
      omega)
    rfl
  rw [List.append_nil] at h
  rw [show (String.mk (dumps ea v)).data = dumps ea v from rfl, h]
  rfl

/-- C5: for every JSON value of object or array kind, re-parsing the
flattened text (`flatten_value`, which serializes with `json.dumps`) as
JSON yields the original value again, for both settings of the
`ensure_ascii` configuration. -/
theorem claim_C5 (conv : Converter) (v : JsonValue) (h : isComplex v = true) :
    loads (flatten_value conv v) = some v := by
  cases v with
  | obj fs => exact loads_dumps conv.ensure_ascii (.obj fs)
  | arr vs => exact loads_dumps conv.ensure_ascii (.arr vs)
  | str s => simp [isComplex] at h
  | num n => simp [isComplex] at h
  | fnum m e => simp [isComplex] at h
  | bool b => simp [isComplex] at h
  | null => simp [isComplex] at h

/-- C5 witness: a concrete nested object survives the round trip. -/
theorem claim_C5_witness :
    isComplex (JsonValue.obj [("a", JsonValue.str "x"),
      ("b", JsonValue.arr [JsonValue.num 5, JsonValue.null])]) = true ∧
    loads (flatten_value ⟨false, false⟩
        (JsonValue.obj [("a", JsonValue.str "x"),
          ("b", JsonValue.arr [JsonValue.num 5, JsonValue.null])])) =
      some (JsonValue.obj [("a", JsonValue.str "x"),
        ("b", JsonValue.arr [JsonValue.num 5, JsonValue.null])]) :=
  ⟨rfl, claim_C5 ⟨false, false⟩ _ rfl⟩
